import Mathlib

/-!
The goroutine launcher of llgo (`pkg/runtime/goroutine.c`).

A shallow embedding of the two functions of `goroutine.c`:

* `Go(struct Func f)`: boxes `f` on the heap and requests a detached thread
  that runs `call_gofunction` on the box;
* `call_gofunction(void *arg)`: passes the boxed descriptor to `guardedcall0`,
  frees the box and returns `NULL`.

Every C statement is one transition of a small-step system.  Activations of
`Go` and threads running `call_gofunction` are interleaved statement by
statement, in any order; memory is sequentially consistent, which is what the
program sees since `pthread_create` orders everything before it before the
first statement of the new thread.  The environment (`malloc`, `free`, the
pthread library and `guardedcall0`) is modelled by explicit state and by
answers supplied with each transition.
-/

namespace Goroutine

/-! ## Data model -/

/-- Modelled from the spec: `struct Func` is declared in `types.h`, which is not
part of the sources.  The spec describes it as an entry point together with a
captured environment; both are machine addresses here. -/
structure Func where
  fn : Nat
  env : Nat
deriving DecidableEq

/-- A pointer value: `none` is `NULL`, `some a` is the address of heap block `a`. -/
abbrev Ptr := Option Nat

/-- One heap block.  A block returned by `malloc` is live, has the requested
size and indeterminate content (`none`) until a descriptor is stored into it.
After `free` it is dead for good: block identities are never reused, so a
dangling pointer never becomes valid again. -/
inductive Cell where
  | live (size : Nat) (content : Option Func)
  | freed
deriving DecidableEq

/-- The heap: block `a` is the `a`-th block ever allocated. -/
abbrev Heap := List Cell

/-- The ways a transition can fail.  All but `notEnabled` are undefined
behaviour of the C program; `notEnabled` says the transition does not exist
(no such activation, or it has already returned). -/
inductive Err where
  | nullDeref
  | invalidAccess
  | outOfBounds
  | uninitRead
  | invalidFree
  | uninitAttr
  | notEnabled
deriving DecidableEq

/-- The detach state of a thread attribute object. -/
inductive DetachState where
  | joinable
  | detached
deriving DecidableEq

/-- A start routine handed to `pthread_create`. -/
inductive Routine where
  | call_gofunction
  | foreign (addr : Nat)
deriving DecidableEq

/-- Modelled from the spec: `guardedcall0` is declared in `panic.h`, which is not
part of the sources.  The spec describes it as the runtime's guarded call: it
runs the task inside a fault-isolation boundary, and the wrapper goes on
"whether the task completed normally or was intercepted as a fault".  These are
the two ways the call comes back.  What the task itself does is outside this
model; the call is recorded with the descriptor it was given, by value. -/
inductive Outcome where
  | completed
  | faultIntercepted
deriving DecidableEq

/-- Who performed an effect: activation `i` of `Go`, or spawned thread `t`. -/
inductive Tid where
  | go (i : Nat)
  | thr (t : Nat)
deriving DecidableEq

/-- The externally visible effects: calls into the C library, into the pthread
library and into `guardedcall0`, and the accesses to heap memory. -/
inductive Event where
  | malloc (size : Nat) (res : Ptr)
  | store (p : Ptr) (v : Func)
  | attr_init
  | attr_setdetachstate (d : DetachState)
  | pthread_create (start : Routine) (arg : Ptr) (attr : DetachState) (ok : Bool)
  | pthread_join (t : Nat)
  | load (p : Ptr) (v : Func)
  | guardedcall0 (d : Func)
  | guardedreturn (o : Outcome)
  | free (p : Ptr)
  | ret (v : Ptr)
deriving DecidableEq

/-- Program points of `Go`, one per statement (lines 42 to 46); `done` is the
end of the function body. -/
inductive GoPc where
  | malloc
  | store
  | attrInit
  | setDetach
  | create
  | done
deriving DecidableEq

/-- An activation of `Go`: the by-value parameter `f` and the locals `f_`,
`attr` (`none` while uninitialised) and `thread` (`none` until
`pthread_create` has stored a thread id). -/
structure GoFrame where
  f : Func
  f_ : Ptr
  attr : Option DetachState
  thread : Option Nat
  pc : GoPc
deriving DecidableEq

/-- Program points of `call_gofunction` (lines 33 to 36).  The call on line 34
takes two transitions: `call` reads `*f` and enters `guardedcall0`, `inCall`
is the return from it. -/
inductive CgPc where
  | cast
  | call
  | inCall
  | free
  | ret
  | done
deriving DecidableEq

/-- A thread running `call_gofunction`: the parameter `arg`, the local `f`, the
by-value argument handed to `guardedcall0` (`none` before the call), the
detach state the thread was created with and the returned value (`none` until
the function returns). -/
structure CgFrame where
  arg : Ptr
  f : Ptr
  passed : Option Func
  detach : DetachState
  pc : CgPc
  retval : Option Ptr
deriving DecidableEq

/-- The state of the system: the variables of the callers of `Go`, the heap,
all activations of `Go` so far, all threads created so far, and the effects
performed so far in chronological order. -/
structure Sys where
  callerVars : List Func
  heap : Heap
  gos : List GoFrame
  thrs : List CgFrame
  trace : List (Tid × Event)
deriving DecidableEq

/-- The transitions.  `callerStore i v` is a caller assigning `v` to its
variable `i`; `callGo i` is a caller invoking `Go` on the current value of its
variable `i`; `go i ok` lets activation `i` of `Go` execute its next statement,
`ok` being whether the library call of that statement succeeds; `thr t o` lets
thread `t` execute its next statement, `o` being how the guarded call comes
back. -/
inductive Action where
  | callerStore (i : Nat) (v : Func)
  | callGo (i : Nat)
  | go (i : Nat) (ok : Bool)
  | thr (t : Nat) (o : Outcome)
deriving DecidableEq

deriving instance DecidableEq for Except

/-! ## The C library -/

/-- Calling `malloc(size)`: a fresh live block of that size with indeterminate
content, or `NULL` when the allocator fails. -/
def malloc (h : Heap) (size : Nat) (ok : Bool) : Heap × Ptr :=
  if ok then (h ++ [Cell.live size none], some h.length) else (h, none)

/-- The assignment `*p = v` of a descriptor of `sz` bytes. -/
def store (sz : Nat) (h : Heap) (p : Ptr) (v : Func) : Except Err Heap :=
  match p with
  | none => .error .nullDeref
  | some a =>
    match h[a]? with
    | some (Cell.live size _) =>
      if sz ≤ size then .ok (h.set a (Cell.live size (some v))) else .error .outOfBounds
    | _ => .error .invalidAccess

/-- Reading `*p`, a descriptor of `sz` bytes. -/
def load (sz : Nat) (h : Heap) (p : Ptr) : Except Err Func :=
  match p with
  | none => .error .nullDeref
  | some a =>
    match h[a]? with
    | some (Cell.live size (some v)) => if sz ≤ size then .ok v else .error .outOfBounds
    | some (Cell.live _ none) => .error .uninitRead
    | _ => .error .invalidAccess

/-- Calling `free(p)`; `free(NULL)` does nothing. -/
def free (h : Heap) (p : Ptr) : Except Err Heap :=
  match p with
  | none => .ok h
  | some a =>
    match h[a]? with
    | some (Cell.live _ _) => .ok (h.set a Cell.freed)
    | _ => .error .invalidFree

/-! ## The two functions, statement by statement -/

/-- Entering `Go(f)`: a new activation with the parameter bound by value. -/
def enterGo (s : Sys) (f : Func) : Sys :=
  { s with gos := s.gos ++ [{ f := f, f_ := none, attr := none, thread := none, pc := .malloc }] }

/-- The thread that `pthread_create(&thread, &attr, &call_gofunction, p)` starts:
it is about to execute the first statement of `call_gofunction(p)`, with the
detach state `d` of the attribute object. -/
def spawned (p : Ptr) (d : DetachState) : CgFrame :=
  { arg := p, f := none, passed := none, detach := d, pc := .cast, retval := none }

/-- One statement of activation `i` of `Go` (lines 42 to 46); `sz` is
`sizeof(struct Func)`, a parameter since `types.h` is not part of the sources. -/
def Go_step (sz : Nat) (s : Sys) (i : Nat) (ok : Bool) : Except Err Sys :=
  match s.gos[i]? with
  | none => .error .notEnabled
  | some g =>
    match g.pc with
    | .malloc =>
      .ok { s with
        heap := (malloc s.heap sz ok).1
        gos := s.gos.set i { g with f_ := (malloc s.heap sz ok).2, pc := .store }
        trace := s.trace ++ [(.go i, .malloc sz (malloc s.heap sz ok).2)] }
    | .store =>
      match store sz s.heap g.f_ g.f with
      | .error e => .error e
      | .ok h =>
        .ok { s with
          heap := h
          gos := s.gos.set i { g with pc := .attrInit }
          trace := s.trace ++ [(.go i, .store g.f_ g.f)] }
    | .attrInit =>
      .ok { s with
        gos := s.gos.set i { g with attr := some .joinable, pc := .setDetach }
        trace := s.trace ++ [(.go i, .attr_init)] }
    | .setDetach =>
      match g.attr with
      | none => .error .uninitAttr
      | some _ =>
        .ok { s with
          gos := s.gos.set i { g with attr := some .detached, pc := .create }
          trace := s.trace ++ [(.go i, .attr_setdetachstate .detached)] }
    | .create =>
      match g.attr with
      | none => .error .uninitAttr
      | some d =>
        if ok then
          .ok { s with
            thrs := s.thrs ++ [spawned g.f_ d]
            gos := s.gos.set i { g with thread := some s.thrs.length, pc := .done }
            trace := s.trace ++ [(.go i, .pthread_create .call_gofunction g.f_ d true)] }
        else
          .ok { s with
            gos := s.gos.set i { g with pc := .done }
            trace := s.trace ++ [(.go i, .pthread_create .call_gofunction g.f_ d false)] }
    | .done => .error .notEnabled

/-- One statement of thread `t` running `call_gofunction` (lines 33 to 36). -/
def call_gofunction_step (sz : Nat) (s : Sys) (t : Nat) (o : Outcome) : Except Err Sys :=
  match s.thrs[t]? with
  | none => .error .notEnabled
  | some c =>
    match c.pc with
    | .cast =>
      .ok { s with thrs := s.thrs.set t { c with f := c.arg, pc := .call } }
    | .call =>
      match load sz s.heap c.f with
      | .error e => .error e
      | .ok d =>
        .ok { s with
          thrs := s.thrs.set t { c with passed := some d, pc := .inCall }
          trace := s.trace ++ [(.thr t, .load c.f d), (.thr t, .guardedcall0 d)] }
    | .inCall =>
      .ok { s with
        thrs := s.thrs.set t { c with pc := .free }
        trace := s.trace ++ [(.thr t, .guardedreturn o)] }
    | .free =>
      match free s.heap c.f with
      | .error e => .error e
      | .ok h =>
        .ok { s with
          heap := h
          thrs := s.thrs.set t { c with pc := .ret }
          trace := s.trace ++ [(.thr t, .free c.f)] }
    | .ret =>
      .ok { s with
        thrs := s.thrs.set t { c with retval := some none, pc := .done }
        trace := s.trace ++ [(.thr t, .ret none)] }
    | .done => .error .notEnabled

/-- One transition of the system. -/
def step (sz : Nat) (s : Sys) : Action → Except Err Sys
  | .callerStore i v => .ok { s with callerVars := s.callerVars.set i v }
  | .callGo i =>
    match s.callerVars[i]? with
    | none => .error .notEnabled
    | some f => .ok (enterGo s f)
  | .go i ok => Go_step sz s i ok
  | .thr t o => call_gofunction_step sz s t o

/-- Running a schedule, transition by transition. -/
def run (sz : Nat) (s : Sys) : List Action → Except Err Sys
  | [] => .ok s
  | a :: as =>
    match step sz s a with
    | .error e => .error e
    | .ok s1 => run sz s1 as

/-- The state before any call of `Go`: an arbitrary heap and arbitrary caller
variables, no activation, no thread, no effect. -/
def init (h0 : Heap) (vars : List Func) : Sys :=
  { callerVars := vars, heap := h0, gos := [], thrs := [], trace := [] }

/-- The whole body of `Go(f)` run without interruption: the new activation is
number `s.gos.length`; `mallocOk` and `createOk` are the answers of `malloc`
and of `pthread_create`. -/
def Go (sz : Nat) (s : Sys) (f : Func) (mallocOk createOk : Bool) : Except Err Sys :=
  run sz (enterGo s f)
    [.go s.gos.length mallocOk, .go s.gos.length true, .go s.gos.length true,
     .go s.gos.length true, .go s.gos.length createOk]

/-- The whole body of `call_gofunction` run without interruption by thread `t`;
`o` is how the guarded call comes back. -/
def call_gofunction (sz : Nat) (s : Sys) (t : Nat) (o : Outcome) : Except Err Sys :=
  run sz s [.thr t o, .thr t o, .thr t o, .thr t o, .thr t o]

/-! ## The transition relation, invariants and observations -/

/-- The transitions of the system as a relation, one rule per statement. -/
inductive Step (sz : Nat) (s : Sys) : Action → Sys → Prop where
  | callerStore (i : Nat) (v : Func) :
      Step sz s (.callerStore i v) { s with callerVars := s.callerVars.set i v }
  | callGo (i : Nat) (f : Func) (hf : s.callerVars[i]? = some f) :
      Step sz s (.callGo i) (enterGo s f)
  | goMalloc (i : Nat) (ok : Bool) (g : GoFrame) (hg : s.gos[i]? = some g) (hpc : g.pc = .malloc) :
      Step sz s (.go i ok)
        { s with
          heap := (malloc s.heap sz ok).1
          gos := s.gos.set i { g with f_ := (malloc s.heap sz ok).2, pc := .store }
          trace := s.trace ++ [(.go i, .malloc sz (malloc s.heap sz ok).2)] }
  | goStore (i : Nat) (ok : Bool) (g : GoFrame) (h : Heap) (hg : s.gos[i]? = some g)
      (hpc : g.pc = .store) (hst : store sz s.heap g.f_ g.f = .ok h) :
      Step sz s (.go i ok)
        { s with
          heap := h
          gos := s.gos.set i { g with pc := .attrInit }
          trace := s.trace ++ [(.go i, .store g.f_ g.f)] }
  | goAttrInit (i : Nat) (ok : Bool) (g : GoFrame) (hg : s.gos[i]? = some g)
      (hpc : g.pc = .attrInit) :
      Step sz s (.go i ok)
        { s with
          gos := s.gos.set i { g with attr := some .joinable, pc := .setDetach }
          trace := s.trace ++ [(.go i, .attr_init)] }
  | goSetDetach (i : Nat) (ok : Bool) (g : GoFrame) (d : DetachState) (hg : s.gos[i]? = some g)
      (hpc : g.pc = .setDetach) (hattr : g.attr = some d) :
      Step sz s (.go i ok)
        { s with
          gos := s.gos.set i { g with attr := some .detached, pc := .create }
          trace := s.trace ++ [(.go i, .attr_setdetachstate .detached)] }
  | goCreate (i : Nat) (g : GoFrame) (d : DetachState) (hg : s.gos[i]? = some g)
      (hpc : g.pc = .create) (hattr : g.attr = some d) :
      Step sz s (.go i true)
        { s with
          thrs := s.thrs ++ [spawned g.f_ d]
          gos := s.gos.set i { g with thread := some s.thrs.length, pc := .done }
          trace := s.trace ++ [(.go i, .pthread_create .call_gofunction g.f_ d true)] }
  | goCreateFail (i : Nat) (g : GoFrame) (d : DetachState) (hg : s.gos[i]? = some g)
      (hpc : g.pc = .create) (hattr : g.attr = some d) :
      Step sz s (.go i false)
        { s with
          gos := s.gos.set i { g with pc := .done }
          trace := s.trace ++ [(.go i, .pthread_create .call_gofunction g.f_ d false)] }
  | thrCast (t : Nat) (o : Outcome) (c : CgFrame) (hc : s.thrs[t]? = some c) (hpc : c.pc = .cast) :
      Step sz s (.thr t o) { s with thrs := s.thrs.set t { c with f := c.arg, pc := .call } }
  | thrCall (t : Nat) (o : Outcome) (c : CgFrame) (d : Func) (hc : s.thrs[t]? = some c)
      (hpc : c.pc = .call) (hld : load sz s.heap c.f = .ok d) :
      Step sz s (.thr t o)
        { s with
          thrs := s.thrs.set t { c with passed := some d, pc := .inCall }
          trace := s.trace ++ [(.thr t, .load c.f d), (.thr t, .guardedcall0 d)] }
  | thrReturn (t : Nat) (o : Outcome) (c : CgFrame) (hc : s.thrs[t]? = some c)
      (hpc : c.pc = .inCall) :
      Step sz s (.thr t o)
        { s with
          thrs := s.thrs.set t { c with pc := .free }
          trace := s.trace ++ [(.thr t, .guardedreturn o)] }
  | thrFree (t : Nat) (o : Outcome) (c : CgFrame) (h : Heap) (hc : s.thrs[t]? = some c)
      (hpc : c.pc = .free) (hfr : free s.heap c.f = .ok h) :
      Step sz s (.thr t o)
        { s with
          heap := h
          thrs := s.thrs.set t { c with pc := .ret }
          trace := s.trace ++ [(.thr t, .free c.f)] }
  | thrRet (t : Nat) (o : Outcome) (c : CgFrame) (hc : s.thrs[t]? = some c) (hpc : c.pc = .ret) :
      Step sz s (.thr t o)
        { s with
          thrs := s.thrs.set t { c with retval := some none, pc := .done }
          trace := s.trace ++ [(.thr t, .ret none)] }

/-- What thread frame `c` guarantees about its handle `a`, whose descriptor is `d`. -/
def ThrOk (sz : Nat) (h : Heap) (c : CgFrame) (a : Nat) (d : Func) : Prop :=
  c.arg = some a ∧ c.detach = .detached ∧
  match c.pc with
  | .cast => c.passed = none ∧ c.retval = none ∧ h[a]? = some (.live sz (some d))
  | .call => c.f = some a ∧ c.passed = none ∧ c.retval = none ∧
      h[a]? = some (.live sz (some d))
  | .inCall => c.f = some a ∧ c.passed = some d ∧ c.retval = none ∧
      h[a]? = some (.live sz (some d))
  | .free => c.f = some a ∧ c.passed = some d ∧ c.retval = none ∧
      h[a]? = some (.live sz (some d))
  | .ret => c.f = some a ∧ c.passed = some d ∧ c.retval = none ∧ h[a]? = some .freed
  | .done => c.f = some a ∧ c.passed = some d ∧ c.retval = some none ∧ h[a]? = some .freed

/-- What activation `g` of `Go` guarantees at its program point. -/
def GoOk (sz : Nat) (h : Heap) (nthr base : Nat) (g : GoFrame) : Prop :=
  (∀ a, g.f_ = some a → base ≤ a ∧ a < h.length) ∧
  match g.pc with
  | .malloc => g.f_ = none ∧ g.thread = none
  | .store => g.thread = none ∧ ∀ a, g.f_ = some a → h[a]? = some (.live sz none)
  | .attrInit => g.thread = none ∧ ∃ a, g.f_ = some a ∧ h[a]? = some (.live sz (some g.f))
  | .setDetach => g.thread = none ∧ (∃ d, g.attr = some d) ∧
      ∃ a, g.f_ = some a ∧ h[a]? = some (.live sz (some g.f))
  | .create => g.thread = none ∧ g.attr = some .detached ∧
      ∃ a, g.f_ = some a ∧ h[a]? = some (.live sz (some g.f))
  | .done => (∃ a, g.f_ = some a) ∧ g.attr = some .detached ∧
      ∀ t, g.thread = some t → t < nthr

/-- The ownership invariant of the reachable states, `h0` being the heap at the
start: the blocks of `h0` are untouched; every activation of `Go` is as its
program point says; two activations never hold the same handle; every thread
has the handle and the descriptor of the one activation that created it; and
every block allocated since the start is the handle of an activation. -/
structure Inv (sz : Nat) (h0 : Heap) (s : Sys) : Prop where
  base : ∀ a, a < h0.length → s.heap[a]? = h0[a]?
  go_ok : ∀ (i : Nat) g, s.gos[i]? = some g → GoOk sz s.heap s.thrs.length h0.length g
  go_inj : ∀ (i j : Nat) g g1 a, s.gos[i]? = some g → s.gos[j]? = some g1 →
    g.f_ = some a → g1.f_ = some a → i = j
  thr_ok : ∀ (t : Nat) c, s.thrs[t]? = some c →
    ∃ (i : Nat) (g : GoFrame) (a : Nat), s.gos[i]? = some g ∧ g.thread = some t ∧
      g.f_ = some a ∧ ThrOk sz s.heap c a g.f
  thread_inj : ∀ (i j : Nat) g g1 t, s.gos[i]? = some g → s.gos[j]? = some g1 →
    g.thread = some t → g1.thread = some t → i = j
  cover : ∀ a, h0.length ≤ a → a < s.heap.length →
    ∃ (i : Nat) (g : GoFrame), s.gos[i]? = some g ∧ g.f_ = some a

/-- Whether the library call made by the transition succeeds. -/
def Action.succeeds : Action → Bool
  | .go _ ok => ok
  | _ => true

/-- What holds when every call of `malloc` and `pthread_create` has succeeded. -/
structure Succ (s : Sys) : Prop where
  created : ∀ (i : Nat) g, s.gos[i]? = some g → g.pc = .done → ∃ t, g.thread = some t
  allocated : ∀ (i : Nat) g, s.gos[i]? = some g → g.pc ≠ .malloc → ∃ a, g.f_ = some a

/-- The effects performed by `who`, in chronological order. -/
def effectsOf (who : Tid) (tr : List (Tid × Event)) : List Event :=
  tr.filterMap (fun e => if e.1 = who then some e.2 else none)

/-- The effects an activation of `Go` has performed when it stands at its
program point: the statements of lines 42 to 46, in program order. -/
def goEffects (sz : Nat) (g : GoFrame) : List Event :=
  match g.pc with
  | .malloc => []
  | .store => [.malloc sz g.f_]
  | .attrInit => [.malloc sz g.f_, .store g.f_ g.f]
  | .setDetach => [.malloc sz g.f_, .store g.f_ g.f, .attr_init]
  | .create => [.malloc sz g.f_, .store g.f_ g.f, .attr_init, .attr_setdetachstate .detached]
  | .done => [.malloc sz g.f_, .store g.f_ g.f, .attr_init, .attr_setdetachstate .detached,
      .pthread_create .call_gofunction g.f_ .detached g.thread.isSome]

/-- The effects a thread running `call_gofunction` has performed when it stands
at its program point, `d` being the descriptor it read and `o` the way the
guarded call came back. -/
def cgEffects (c : CgFrame) (d : Func) (o : Outcome) : List Event :=
  match c.pc with
  | .cast => []
  | .call => []
  | .inCall => [.load c.f d, .guardedcall0 d]
  | .free => [.load c.f d, .guardedcall0 d, .guardedreturn o]
  | .ret => [.load c.f d, .guardedcall0 d, .guardedreturn o, .free c.f]
  | .done => [.load c.f d, .guardedcall0 d, .guardedreturn o, .free c.f, .ret none]

/-- The effects of every activation of `Go` and of every thread are those of its
program, up to its program point; nobody else has performed any effect. -/
structure EffInv (sz : Nat) (s : Sys) : Prop where
  go_eff : ∀ (i : Nat) g, s.gos[i]? = some g → effectsOf (.go i) s.trace = goEffects sz g
  go_none : ∀ (i : Nat), s.gos.length ≤ i → effectsOf (.go i) s.trace = []
  thr_eff : ∀ (t : Nat) c, s.thrs[t]? = some c →
    ∃ d o, (c.pc ≠ .cast → c.pc ≠ .call → c.passed = some d) ∧
      effectsOf (.thr t) s.trace = cgEffects c d o
  thr_none : ∀ (t : Nat), s.thrs.length ≤ t → effectsOf (.thr t) s.trace = []

/-- Whether an effect names heap block `a`: its allocation, a store to it, its
being handed to `pthread_create`, a read of it, its release. -/
def touches (a : Nat) : Event → Bool
  | .malloc _ p => decide (p = some a)
  | .store p _ => decide (p = some a)
  | .pthread_create _ p _ _ => decide (p = some a)
  | .load p _ => decide (p = some a)
  | .free p => decide (p = some a)
  | _ => false

/-- Everything that ever happened to block `a`, in chronological order. -/
def history (a : Nat) (tr : List (Tid × Event)) : List (Tid × Event) :=
  tr.filter (fun e => touches a e.2)

/-- What thread `t` has done to its handle `a` (holding descriptor `d`) when it
stands at its program point. -/
def thrAccesses (t a : Nat) (d : Func) (c : CgFrame) : List (Tid × Event) :=
  match c.pc with
  | .cast => []
  | .call => []
  | .inCall => [(.thr t, .load (some a) d)]
  | .free => [(.thr t, .load (some a) d)]
  | .ret => [(.thr t, .load (some a) d), (.thr t, .free (some a))]
  | .done => [(.thr t, .load (some a) d), (.thr t, .free (some a))]

/-- The life of the handle `a` of activation `i` of `Go`, as far as the
activation and the thread it created have got: allocated, written and handed
to `pthread_create` by the activation, then read and freed by the thread. -/
def lifecycle (sz : Nat) (thrs : List CgFrame) (i : Nat) (g : GoFrame) (a : Nat) :
    List (Tid × Event) :=
  match g.pc with
  | .malloc => []
  | .store => [(.go i, .malloc sz (some a))]
  | .attrInit => [(.go i, .malloc sz (some a)), (.go i, .store (some a) g.f)]
  | .setDetach => [(.go i, .malloc sz (some a)), (.go i, .store (some a) g.f)]
  | .create => [(.go i, .malloc sz (some a)), (.go i, .store (some a) g.f)]
  | .done =>
    [(.go i, .malloc sz (some a)), (.go i, .store (some a) g.f),
     (.go i, .pthread_create .call_gofunction (some a) .detached g.thread.isSome)] ++
    match g.thread with
    | none => []
    | some t =>
      match thrs[t]? with
      | none => []
      | some c => thrAccesses t a g.f c

/-- The history of every handle is its life cycle, and no other block is ever
named by an effect. -/
structure HistInv (sz : Nat) (h0 : Heap) (s : Sys) : Prop where
  owned : ∀ (i : Nat) g a, s.gos[i]? = some g → g.f_ = some a →
    history a s.trace = lifecycle sz s.thrs i g a
  foreign : ∀ a, (a < h0.length ∨ s.heap.length ≤ a) → history a s.trace = []

/-- The descriptors passed to `guardedcall0`, in chronological order. -/
def guardedArgs (tr : List (Tid × Event)) : List Func :=
  tr.filterMap (fun e => match e.2 with
    | .guardedcall0 d => some d
    | _ => none)

/-- The number of guarded calls that have come back. -/
def completedCalls (tr : List (Tid × Event)) : Nat :=
  tr.countP (fun e => match e.2 with
    | .guardedreturn _ => true
    | _ => false)

/-- Whether the guarded call of a thread has come back. -/
def CgFrame.completed (c : CgFrame) : Bool :=
  decide (c.pc = .free ∨ c.pc = .ret ∨ c.pc = .done)

/-- The thread ids handed out to the activations of `Go` are exactly the ids of
the threads; the descriptors passed to `guardedcall0` are those in the argument
slots of the threads; the guarded calls that have come back are as many as the
threads past theirs. -/
structure CountInv (s : Sys) : Prop where
  ids : (s.gos.filterMap (fun g => g.thread)).Perm (List.range s.thrs.length)
  args : (guardedArgs s.trace).Perm (s.thrs.filterMap (fun c => c.passed))
  returns : completedCalls s.trace = s.thrs.countP (fun c => c.completed)

/-- All invariants of the reachable states together. -/
structure Good (sz : Nat) (h0 : Heap) (s : Sys) : Prop where
  inv : Inv sz h0 s
  eff : EffInv sz s
  hist : HistInv sz h0 s
  count : CountInv s

/-- A descriptor for the demonstration schedules. -/
def demoF : Func := ⟨1, 2⟩

/-- The demonstration schedule: a caller invokes `Go` on its variable 0, the
activation runs to its end, then the thread it created runs to its end. -/
def demoActs : List Action :=
  [.callGo 0, .go 0 true, .go 0 true, .go 0 true, .go 0 true, .go 0 true,
   .thr 0 .completed, .thr 0 .completed, .thr 0 .completed, .thr 0 .completed, .thr 0 .completed]

/-- The state the demonstration schedule ends in, from the empty heap with
`sizeof(struct Func) = 16`. -/
def demoFinal : Sys :=
  { callerVars := [demoF]
    heap := [Cell.freed]
    gos := [{ f := demoF, f_ := some 0, attr := some .detached, thread := some 0, pc := .done }]
    thrs := [{ arg := some 0, f := some 0, passed := some demoF, detach := .detached, pc := .done,
               retval := some none }]
    trace := [(.go 0, .malloc 16 (some 0)), (.go 0, .store (some 0) demoF), (.go 0, .attr_init),
      (.go 0, .attr_setdetachstate .detached),
      (.go 0, .pthread_create .call_gofunction (some 0) .detached true),
      (.thr 0, .load (some 0) demoF), (.thr 0, .guardedcall0 demoF),
      (.thr 0, .guardedreturn .completed), (.thr 0, .free (some 0)), (.thr 0, .ret none)] }

/-- An activation of `Go(f)` that has returned, with handle `p` and thread id `t`. -/
def returned (f : Func) (p : Ptr) (t : Option Nat) : GoFrame :=
  { f := f, f_ := p, attr := some .detached, thread := t, pc := .done }

/-- The stores into block `a`, in chronological order. -/
def storesTo (a : Nat) (tr : List (Tid × Event)) : List (Tid × Event) :=
  tr.filter (fun e => match e.2 with
    | .store p _ => decide (p = some a)
    | _ => false)

/-- The reads of block `a`, in chronological order. -/
def loadsFrom (a : Nat) (tr : List (Tid × Event)) : List (Tid × Event) :=
  tr.filter (fun e => match e.2 with
    | .load p _ => decide (p = some a)
    | _ => false)

/-- The state of the demonstration schedule when `Go` has returned and the
thread it created has not yet run. -/
def demoSpawned : Sys :=
  { callerVars := [demoF]
    heap := [Cell.live 16 (some demoF)]
    gos := [{ f := demoF, f_ := some 0, attr := some .detached, thread := some 0, pc := .done }]
    thrs := [spawned (some 0) .detached]
    trace := [(.go 0, .malloc 16 (some 0)), (.go 0, .store (some 0) demoF), (.go 0, .attr_init),
      (.go 0, .attr_setdetachstate .detached),
      (.go 0, .pthread_create .call_gofunction (some 0) .detached true)] }

/-- The state in which `Go(demoF)` ends when `pthread_create` fails. -/
def demoLeak : Sys :=
  { callerVars := []
    heap := [Cell.live 16 (some demoF)]
    gos := [{ f := demoF, f_ := some 0, attr := some .detached, thread := none, pc := .done }]
    thrs := []
    trace := [(.go 0, .malloc 16 (some 0)), (.go 0, .store (some 0) demoF), (.go 0, .attr_init),
      (.go 0, .attr_setdetachstate .detached),
      (.go 0, .pthread_create .call_gofunction (some 0) .detached false)] }

/-- A schedule in which the caller overwrites its variable right after the call. -/
def demoActsStore : List Action :=
  [.callerStore 0 ⟨7, 7⟩, .go 0 true, .go 0 true, .go 0 true, .go 0 true, .go 0 true,
   .thr 0 .faultIntercepted, .thr 0 .faultIntercepted, .thr 0 .faultIntercepted]

/-- The state the schedule `demoActsStore` ends in, started by `callGo 0`. -/
def demoStored : Sys :=
  { callerVars := [⟨7, 7⟩]
    heap := [Cell.live 16 (some demoF)]
    gos := [{ f := demoF, f_ := some 0, attr := some .detached, thread := some 0, pc := .done }]
    thrs := [{ arg := some 0, f := some 0, passed := some demoF, detach := .detached, pc := .free,
               retval := none }]
    trace := [(.go 0, .malloc 16 (some 0)), (.go 0, .store (some 0) demoF), (.go 0, .attr_init),
      (.go 0, .attr_setdetachstate .detached),
      (.go 0, .pthread_create .call_gofunction (some 0) .detached true),
      (.thr 0, .load (some 0) demoF), (.thr 0, .guardedcall0 demoF),
      (.thr 0, .guardedreturn .faultIntercepted)] }

/-! ## Theorems -/

/-! ### Lookups in updated lists and the transition relation -/

theorem lookup_set {α : Type} {l : List α} {i j : Nat} {x y z : α} (h : l[i]? = some x) :
    (l.set i y)[j]? = some z ↔ (j = i ∧ z = y) ∨ (j ≠ i ∧ l[j]? = some z) := by
  have hi : i < l.length := (List.getElem?_eq_some_iff.1 h).1
  rw [List.getElem?_set]
  by_cases hij : i = j
  · subst hij; simp [hi, eq_comm]
  · have : j ≠ i := fun e => hij e.symm
    simp [hij, this]

theorem lookup_snoc {α : Type} {l : List α} {j : Nat} {x z : α} :
    (l ++ [x])[j]? = some z ↔ l[j]? = some z ∨ (j = l.length ∧ z = x) := by
  rw [List.getElem?_append]
  by_cases hj : j < l.length
  · simp [hj]; intro h; omega
  · simp only [hj, if_false]
    have hn : l[j]? = none := List.getElem?_eq_none (by omega)
    by_cases he : j = l.length
    · subst he; simp [eq_comm]
    · have : j - l.length ≠ 0 := by omega
      simp [hn, he]
      cases hk : j - l.length with
      | zero => omega
      | succ k => simp

theorem Step_of_step {sz : Nat} {s s1 : Sys} {a : Action} (h : step sz s a = .ok s1) :
    Step sz s a s1 := by
  cases a with
  | callerStore i v =>
    simp only [step, Except.ok.injEq] at h
    subst h; exact Step.callerStore i v
  | callGo i =>
    simp only [step] at h
    split at h
    · exact absurd h (by simp)
    · next f hf =>
      simp only [Except.ok.injEq] at h
      subst h; exact Step.callGo i f hf
  | go i ok =>
    simp only [step, Go_step] at h
    split at h
    · exact absurd h (by simp)
    · next g hg =>
      split at h
      · next hpc =>
        simp only [Except.ok.injEq] at h
        subst h; exact Step.goMalloc i ok g hg hpc
      · next hpc =>
        split at h
        · exact absurd h (by simp)
        · next hp hst =>
          simp only [Except.ok.injEq] at h
          subst h; exact Step.goStore i ok g hp hg hpc hst
      · next hpc =>
        simp only [Except.ok.injEq] at h
        subst h; exact Step.goAttrInit i ok g hg hpc
      · next hpc =>
        split at h
        · exact absurd h (by simp)
        · next d hattr =>
          simp only [Except.ok.injEq] at h
          subst h; exact Step.goSetDetach i ok g d hg hpc hattr
      · next hpc =>
        split at h
        · exact absurd h (by simp)
        · next d hattr =>
          split at h
          · next hok =>
            simp only [Except.ok.injEq] at h
            subst h; subst hok; exact Step.goCreate i g d hg hpc hattr
          · next hok =>
            simp only [Except.ok.injEq] at h
            have : ok = false := by simpa using hok
            subst h; subst this; exact Step.goCreateFail i g d hg hpc hattr
      · exact absurd h (by simp)
  | thr t o =>
    simp only [step, call_gofunction_step] at h
    split at h
    · exact absurd h (by simp)
    · next c hc =>
      split at h
      · next hpc =>
        simp only [Except.ok.injEq] at h
        subst h; exact Step.thrCast t o c hc hpc
      · next hpc =>
        split at h
        · exact absurd h (by simp)
        · next d hld =>
          simp only [Except.ok.injEq] at h
          subst h; exact Step.thrCall t o c d hc hpc hld
      · next hpc =>
        simp only [Except.ok.injEq] at h
        subst h; exact Step.thrReturn t o c hc hpc
      · next hpc =>
        split at h
        · exact absurd h (by simp)
        · next hp hfr =>
          simp only [Except.ok.injEq] at h
          subst h; exact Step.thrFree t o c hp hc hpc hfr
      · next hpc =>
        simp only [Except.ok.injEq] at h
        subst h; exact Step.thrRet t o c hc hpc
      · exact absurd h (by simp)

/-! ### The ownership invariant -/

theorem GoOk_mono {sz : Nat} {h h1 : Heap} {n n1 base : Nat} {g : GoFrame}
    (hg : GoOk sz h n base g) (hcell : g.pc ≠ .done → ∀ a, g.f_ = some a → h1[a]? = h[a]?)
    (hlen : h.length ≤ h1.length) (hn : n ≤ n1) : GoOk sz h1 n1 base g := by
  obtain ⟨hb, hpc⟩ := hg
  refine ⟨fun a ha => ⟨(hb a ha).1, lt_of_lt_of_le (hb a ha).2 hlen⟩, ?_⟩
  cases hp : g.pc <;> simp only [hp] at hpc ⊢ <;>
    have hcell := fun (hd : g.pc ≠ .done) => hcell hd
  · exact hpc
  · exact ⟨hpc.1, fun a ha => by rw [hcell (by simp [hp]) a ha]; exact hpc.2 a ha⟩
  · obtain ⟨h1, a, ha, hc⟩ := hpc
    exact ⟨h1, a, ha, by rw [hcell (by simp [hp]) a ha]; exact hc⟩
  · obtain ⟨h1, h2, a, ha, hc⟩ := hpc
    exact ⟨h1, h2, a, ha, by rw [hcell (by simp [hp]) a ha]; exact hc⟩
  · obtain ⟨h1, h2, a, ha, hc⟩ := hpc
    exact ⟨h1, h2, a, ha, by rw [hcell (by simp [hp]) a ha]; exact hc⟩
  · exact ⟨hpc.1, hpc.2.1, fun t ht => lt_of_lt_of_le (hpc.2.2 t ht) hn⟩

theorem ThrOk_mono {sz : Nat} {h h1 : Heap} {c : CgFrame} {a : Nat} {d : Func}
    (hc : ThrOk sz h c a d) (hcell : h1[a]? = h[a]?) : ThrOk sz h1 c a d := by
  unfold ThrOk at hc ⊢
  rw [hcell]; exact hc

theorem store_ok {sz : Nat} {h h1 : Heap} {p : Ptr} {v : Func} (hs : store sz h p v = .ok h1) :
    ∃ a n c, p = some a ∧ h[a]? = some (Cell.live n c) ∧ sz ≤ n ∧
      h1 = h.set a (Cell.live n (some v)) := by
  unfold store at hs
  split at hs
  · exact absurd hs (by simp)
  · next a =>
    split at hs
    · next n c hc =>
      split at hs
      · next hle =>
        simp only [Except.ok.injEq] at hs
        exact ⟨a, n, c, rfl, hc, hle, hs.symm⟩
      · exact absurd hs (by simp)
    · exact absurd hs (by simp)

theorem load_ok {sz : Nat} {h : Heap} {p : Ptr} {d : Func} (hl : load sz h p = .ok d) :
    ∃ a n, p = some a ∧ h[a]? = some (Cell.live n (some d)) ∧ sz ≤ n := by
  unfold load at hl
  split at hl
  · exact absurd hl (by simp)
  · next a =>
    split at hl
    · next n v hc =>
      split at hl
      · next hle =>
        simp only [Except.ok.injEq] at hl
        subst hl
        exact ⟨a, n, rfl, hc, hle⟩
      · exact absurd hl (by simp)
    · exact absurd hl (by simp)
    · exact absurd hl (by simp)

theorem free_ok {h h1 : Heap} {p : Ptr} (hf : free h p = .ok h1) :
    (p = none ∧ h1 = h) ∨
    ∃ a n c, p = some a ∧ h[a]? = some (Cell.live n c) ∧ h1 = h.set a Cell.freed := by
  unfold free at hf
  split at hf
  · simp only [Except.ok.injEq] at hf
    exact Or.inl ⟨rfl, hf.symm⟩
  · next a =>
    split at hf
    · next n c hc =>
      simp only [Except.ok.injEq] at hf
      exact Or.inr ⟨a, n, c, rfl, hc, hf.symm⟩
    · exact absurd hf (by simp)

theorem lookup_lt {α : Type} {l : List α} {i : Nat} {x : α} (h : l[i]? = some x) :
    i < l.length :=
  (List.getElem?_eq_some_iff.1 h).1

theorem lookup_append_of_some {α : Type} {l r : List α} {i : Nat} {x : α} (h : l[i]? = some x) :
    (l ++ r)[i]? = l[i]? := List.getElem?_append_left (lookup_lt h)

theorem lookup_set_ne {α : Type} {l : List α} {i j : Nat} {y : α} (h : i ≠ j) :
    (l.set i y)[j]? = l[j]? := by
  rw [List.getElem?_set]; simp [h]

theorem Inv_init (sz : Nat) (h0 : Heap) (vars : List Func) : Inv sz h0 (init h0 vars) := by
  refine ⟨fun a _ => rfl, ?_, ?_, ?_, ?_, ?_⟩ <;> simp [init]

/-- Class A: an activation of `Go` moves on without touching heap, handle or thread id. -/
theorem Inv_setGo {sz : Nat} {h0 : Heap} {s s1 : Sys} {i : Nat} {g g1 : GoFrame}
    (hinv : Inv sz h0 s) (hheap : s1.heap = s.heap) (hthrs : s1.thrs = s.thrs)
    (hgos : s1.gos = s.gos.set i g1) (hg : s.gos[i]? = some g)
    (hf_ : g1.f_ = g.f_) (hth : g1.thread = g.thread) (hf : g1.f = g.f)
    (hok : GoOk sz s.heap s.thrs.length h0.length g1) : Inv sz h0 s1 := by
  refine ⟨?_, ?_, ?_, ?_, ?_, ?_⟩
  · rw [hheap]; exact hinv.base
  · intro j gj hj
    rw [hheap, hthrs]
    rw [hgos, lookup_set hg] at hj
    rcases hj with ⟨-, rfl⟩ | ⟨-, hj⟩
    · exact hok
    · exact hinv.go_ok j gj hj
  · intro j k gj gk a hj hk haj hak
    rw [hgos, lookup_set hg] at hj hk
    rcases hj with ⟨rfl, rfl⟩ | ⟨hji, hj⟩ <;> rcases hk with ⟨rfl, rfl⟩ | ⟨hki, hk⟩
    · rfl
    · exact hinv.go_inj _ _ _ _ a hg hk (hf_ ▸ haj) hak
    · exact hinv.go_inj _ _ _ _ a hj hg haj (hf_ ▸ hak)
    · exact hinv.go_inj _ _ _ _ a hj hk haj hak
  · intro t c hc
    rw [hthrs] at hc
    obtain ⟨j, gj, a, hj, hjt, hja, hthr⟩ := hinv.thr_ok t c hc
    rw [hheap]
    by_cases hji : j = i
    · subst hji
      have : gj = g := by rw [hg] at hj; exact (Option.some.inj hj).symm
      subst this
      exact ⟨j, g1, a, by rw [hgos, lookup_set hg]; exact Or.inl ⟨rfl, rfl⟩,
        hth ▸ hjt, hf_ ▸ hja, hf ▸ hthr⟩
    · exact ⟨j, gj, a, by rw [hgos, lookup_set hg]; exact Or.inr ⟨hji, hj⟩, hjt, hja, hthr⟩
  · intro j k gj gk t hj hk hjt hkt
    rw [hgos, lookup_set hg] at hj hk
    rcases hj with ⟨rfl, rfl⟩ | ⟨hji, hj⟩ <;> rcases hk with ⟨rfl, rfl⟩ | ⟨hki, hk⟩
    · rfl
    · exact hinv.thread_inj _ _ _ _ t hg hk (hth ▸ hjt) hkt
    · exact hinv.thread_inj _ _ _ _ t hj hg hjt (hth ▸ hkt)
    · exact hinv.thread_inj _ _ _ _ t hj hk hjt hkt
  · intro a ha hlt
    rw [hheap] at hlt
    obtain ⟨j, gj, hj, hja⟩ := hinv.cover a ha hlt
    by_cases hji : j = i
    · subst hji
      have : gj = g := by rw [hg] at hj; exact (Option.some.inj hj).symm
      subst this
      exact ⟨j, g1, by rw [hgos, lookup_set hg]; exact Or.inl ⟨rfl, rfl⟩, hf_ ▸ hja⟩
    · exact ⟨j, gj, by rw [hgos, lookup_set hg]; exact Or.inr ⟨hji, hj⟩, hja⟩

/-- Class E: a thread moves on without touching the heap. -/
theorem Inv_setThr {sz : Nat} {h0 : Heap} {s s1 : Sys} {t : Nat} {c c1 : CgFrame}
    (hinv : Inv sz h0 s) (hheap : s1.heap = s.heap) (hgos : s1.gos = s.gos)
    (hthrs : s1.thrs = s.thrs.set t c1) (hc : s.thrs[t]? = some c)
    (hok : ∀ a d, ThrOk sz s.heap c a d → ThrOk sz s.heap c1 a d) : Inv sz h0 s1 := by
  refine ⟨?_, ?_, ?_, ?_, ?_, ?_⟩
  · rw [hheap]; exact hinv.base
  · intro j gj hj
    rw [hheap, hthrs, hgos, List.length_set] at *
    exact hinv.go_ok j gj hj
  · rw [hgos]; exact hinv.go_inj
  · intro k ck hk
    rw [hthrs, lookup_set hc] at hk
    rw [hheap, hgos]
    rcases hk with ⟨rfl, rfl⟩ | ⟨-, hk⟩
    · obtain ⟨j, gj, a, hj, hjt, hja, hthr⟩ := hinv.thr_ok _ c hc
      exact ⟨j, gj, a, hj, hjt, hja, hok a gj.f hthr⟩
    · exact hinv.thr_ok k ck hk
  · rw [hgos]; exact hinv.thread_inj
  · rw [hheap, hgos]; exact hinv.cover

theorem GoOk_thread {sz : Nat} {h : Heap} {n base : Nat} {g : GoFrame} {t : Nat}
    (hg : GoOk sz h n base g) (ht : g.thread = some t) : g.pc = .done ∧ t < n := by
  obtain ⟨-, hpc⟩ := hg
  cases hp : g.pc <;> simp only [hp] at hpc
  · rw [hpc.2] at ht; exact absurd ht (by simp)
  · rw [hpc.1] at ht; exact absurd ht (by simp)
  · rw [hpc.1] at ht; exact absurd ht (by simp)
  · rw [hpc.1] at ht; exact absurd ht (by simp)
  · rw [hpc.1] at ht; exact absurd ht (by simp)
  · exact ⟨rfl, hpc.2.2 t ht⟩

theorem Inv.base_le {sz : Nat} {h0 : Heap} {s : Sys} (hinv : Inv sz h0 s) :
    h0.length ≤ s.heap.length := by
  by_contra hlt
  have h1 : s.heap.length < h0.length := by omega
  have h2 := hinv.base s.heap.length h1
  rw [List.getElem?_eq_none (le_refl _)] at h2
  have h3 : h0[s.heap.length]? = some (h0[s.heap.length]) := List.getElem?_eq_getElem h1
  rw [h3] at h2
  exact absurd h2 (by simp)

/-- Class G: a caller enters `Go`. -/
theorem Inv_enterGo {sz : Nat} {h0 : Heap} {s : Sys} (hinv : Inv sz h0 s) (f : Func) :
    Inv sz h0 (enterGo s f) := by
  refine ⟨hinv.base, ?_, ?_, ?_, ?_, ?_⟩
  · intro j gj hj
    simp only [enterGo, lookup_snoc] at hj
    rcases hj with hj | ⟨-, rfl⟩
    · exact hinv.go_ok j gj hj
    · exact ⟨by simp, by simp⟩
  · intro j k gj gk a hj hk haj hak
    simp only [enterGo, lookup_snoc] at hj hk
    rcases hj with hj | ⟨-, rfl⟩ <;> rcases hk with hk | ⟨-, rfl⟩
    · exact hinv.go_inj _ _ _ _ a hj hk haj hak
    · exact absurd hak (by simp)
    · exact absurd haj (by simp)
    · exact absurd haj (by simp)
  · intro t c hc
    obtain ⟨j, gj, a, hj, hjt, hja, hthr⟩ := hinv.thr_ok t c hc
    exact ⟨j, gj, a, by simp only [enterGo, lookup_snoc]; exact Or.inl hj, hjt, hja, hthr⟩
  · intro j k gj gk t hj hk hjt hkt
    simp only [enterGo, lookup_snoc] at hj hk
    rcases hj with hj | ⟨-, rfl⟩ <;> rcases hk with hk | ⟨-, rfl⟩
    · exact hinv.thread_inj _ _ _ _ t hj hk hjt hkt
    · exact absurd hkt (by simp)
    · exact absurd hjt (by simp)
    · exact absurd hjt (by simp)
  · intro a ha hlt
    obtain ⟨j, gj, hj, hja⟩ := hinv.cover a ha hlt
    exact ⟨j, gj, by simp only [enterGo, lookup_snoc]; exact Or.inl hj, hja⟩

/-- Class B: `malloc` returns a fresh block. -/
theorem Inv_malloc {sz : Nat} {h0 : Heap} {s s1 : Sys} {i : Nat} {g : GoFrame}
    (hinv : Inv sz h0 s) (hg : s.gos[i]? = some g) (hpc : g.pc = .malloc)
    (hheap : s1.heap = s.heap ++ [Cell.live sz none]) (hthrs : s1.thrs = s.thrs)
    (hgos : s1.gos = s.gos.set i { g with f_ := some s.heap.length, pc := .store }) :
    Inv sz h0 s1 := by
  have hgi := hinv.go_ok i g hg
  have hgnone : g.f_ = none ∧ g.thread = none := by
    have := hgi.2; simp only [hpc] at this; exact this
  have hlift : ∀ (a : Nat) (x : Cell), s.heap[a]? = some x → s1.heap[a]? = s.heap[a]? := by
    intro a x hx; rw [hheap]; exact lookup_append_of_some hx
  have hliftlt : ∀ (a : Nat), a < s.heap.length → s1.heap[a]? = s.heap[a]? := by
    intro a ha; rw [hheap]; exact List.getElem?_append_left ha
  have hlen : s1.heap.length = s.heap.length + 1 := by simp [hheap]
  refine ⟨?_, ?_, ?_, ?_, ?_, ?_⟩
  · intro a ha
    rw [hliftlt a (lt_of_lt_of_le ha hinv.base_le)]; exact hinv.base a ha
  · intro j gj hj
    rw [hgos, lookup_set hg] at hj
    rw [hthrs]
    rcases hj with ⟨-, rfl⟩ | ⟨-, hj⟩
    · refine ⟨?_, ?_⟩
      · intro a ha
        simp only [Option.some.injEq] at ha
        subst ha
        exact ⟨hinv.base_le, by omega⟩
      · simp only
        refine ⟨hgnone.2, ?_⟩
        intro a ha
        simp only [Option.some.injEq] at ha
        subst ha
        rw [hheap]; exact List.getElem?_concat_length _ _
    · exact GoOk_mono (hinv.go_ok j gj hj)
        (fun _ a ha => hliftlt a ((hinv.go_ok j gj hj).1 a ha).2) (by omega) (le_refl _)
  · intro j k gj gk a hj hk haj hak
    rw [hgos, lookup_set hg] at hj hk
    rcases hj with ⟨rfl, rfl⟩ | ⟨hji, hj⟩ <;> rcases hk with ⟨rfl, rfl⟩ | ⟨hki, hk⟩
    · rfl
    · simp only [Option.some.injEq] at haj
      subst haj
      exact absurd ((hinv.go_ok _ _ hk).1 _ hak).2 (lt_irrefl _)
    · simp only [Option.some.injEq] at hak
      subst hak
      exact absurd ((hinv.go_ok _ _ hj).1 _ haj).2 (lt_irrefl _)
    · exact hinv.go_inj _ _ _ _ a hj hk haj hak
  · intro t c hc
    rw [hthrs] at hc
    obtain ⟨j, gj, a, hj, hjt, hja, hthr⟩ := hinv.thr_ok t c hc
    have hji : j ≠ i := by
      rintro rfl
      rw [hg] at hj
      have : g = gj := Option.some.inj hj
      subst this
      rw [hgnone.2] at hjt; exact absurd hjt (by simp)
    exact ⟨j, gj, a, by rw [hgos, lookup_set hg]; exact Or.inr ⟨hji, hj⟩, hjt, hja,
      ThrOk_mono hthr (hliftlt a ((hinv.go_ok j gj hj).1 a hja).2)⟩
  · intro j k gj gk t hj hk hjt hkt
    rw [hgos, lookup_set hg] at hj hk
    rcases hj with ⟨rfl, rfl⟩ | ⟨hji, hj⟩ <;> rcases hk with ⟨rfl, rfl⟩ | ⟨hki, hk⟩
    · rfl
    · simp only [hgnone.2] at hjt; exact absurd hjt (by simp)
    · simp only [hgnone.2] at hkt; exact absurd hkt (by simp)
    · exact hinv.thread_inj _ _ _ _ t hj hk hjt hkt
  · intro a ha hlt
    rw [hlen] at hlt
    by_cases hal : a < s.heap.length
    · obtain ⟨j, gj, hj, hja⟩ := hinv.cover a ha hal
      have hji : j ≠ i := by
        rintro rfl
        rw [hg] at hj
        have : g = gj := Option.some.inj hj
        subst this
        rw [hgnone.1] at hja; exact absurd hja (by simp)
      exact ⟨j, gj, by rw [hgos, lookup_set hg]; exact Or.inr ⟨hji, hj⟩, hja⟩
    · have : a = s.heap.length := by omega
      subst this
      exact ⟨i, _, by rw [hgos, lookup_set hg]; exact Or.inl ⟨rfl, rfl⟩, rfl⟩

/-- Class C: `*f_ = f` writes the block the activation has just allocated. -/
theorem Inv_store {sz : Nat} {h0 : Heap} {s s1 : Sys} {i : Nat} {g : GoFrame} {h : Heap}
    (hinv : Inv sz h0 s) (hg : s.gos[i]? = some g) (hpc : g.pc = .store)
    (hst : store sz s.heap g.f_ g.f = .ok h)
    (hheap : s1.heap = h) (hthrs : s1.thrs = s.thrs)
    (hgos : s1.gos = s.gos.set i { g with pc := .attrInit }) :
    Inv sz h0 s1 := by
  have hgi := hinv.go_ok i g hg
  obtain ⟨a, n, c, hfa, hcell, -, rfl⟩ := store_ok hst
  have hgs : g.thread = none ∧ ∀ a, g.f_ = some a → s.heap[a]? = some (.live sz none) := by
    have := hgi.2; simp only [hpc] at this; exact this
  have hn : n = sz := by
    have := hgs.2 a hfa
    rw [hcell] at this
    simp only [Option.some.injEq, Cell.live.injEq] at this
    exact this.1
  subst hn
  have hne : ∀ (b : Nat), b ≠ a → s1.heap[b]? = s.heap[b]? := by
    intro b hb; rw [hheap]; exact lookup_set_ne (fun e => hb e.symm)
  have hlen : s1.heap.length = s.heap.length := by rw [hheap, List.length_set]
  have hother : ∀ (j : Nat) (gj : GoFrame) (b : Nat), j ≠ i → s.gos[j]? = some gj →
      gj.f_ = some b → b ≠ a := by
    intro j gj b hji hj hb hba
    subst hba
    exact hji (hinv.go_inj _ _ _ _ _ hj hg hb hfa)
  have hpar : ∀ (j : Nat) (gj : GoFrame) (t : Nat), s.gos[j]? = some gj →
      gj.thread = some t → j ≠ i := by
    rintro j gj t hj hjt rfl
    rw [hg] at hj
    have : g = gj := Option.some.inj hj
    subst this
    rw [hgs.1] at hjt; exact absurd hjt (by simp)
  refine ⟨?_, ?_, ?_, ?_, ?_, ?_⟩
  · intro b hb
    rw [hne b (by have := (hgi.1 a hfa).1; omega)]; exact hinv.base b hb
  · intro j gj hj
    rw [hgos, lookup_set hg] at hj
    rw [hthrs]
    rcases hj with ⟨-, rfl⟩ | ⟨hji, hj⟩
    · refine ⟨?_, ?_⟩
      · intro b hb
        rw [hlen]; exact hgi.1 b hb
      · simp only
        refine ⟨hgs.1, a, hfa, ?_⟩
        rw [hheap]
        rw [List.getElem?_set]; simp [lookup_lt hcell]
    · exact GoOk_mono (hinv.go_ok j gj hj)
        (fun _ b hb => hne b (hother j gj b hji hj hb)) (by omega) (le_refl _)
  · intro j k gj gk b hj hk haj hak
    rw [hgos, lookup_set hg] at hj hk
    rcases hj with ⟨rfl, rfl⟩ | ⟨hji, hj⟩ <;> rcases hk with ⟨rfl, rfl⟩ | ⟨hki, hk⟩
    · rfl
    · exact hinv.go_inj _ _ _ _ b hg hk haj hak
    · exact hinv.go_inj _ _ _ _ b hj hg haj hak
    · exact hinv.go_inj _ _ _ _ b hj hk haj hak
  · intro t c hc
    rw [hthrs] at hc
    obtain ⟨j, gj, b, hj, hjt, hjb, hthr⟩ := hinv.thr_ok t c hc
    have hji : j ≠ i := hpar j gj t hj hjt
    exact ⟨j, gj, b, by rw [hgos, lookup_set hg]; exact Or.inr ⟨hji, hj⟩, hjt, hjb,
      ThrOk_mono hthr (hne b (hother j gj b hji hj hjb))⟩
  · intro j k gj gk t hj hk hjt hkt
    rw [hgos, lookup_set hg] at hj hk
    rcases hj with ⟨rfl, rfl⟩ | ⟨hji, hj⟩ <;> rcases hk with ⟨rfl, rfl⟩ | ⟨hki, hk⟩
    · rfl
    · exact hinv.thread_inj _ _ _ _ t hg hk hjt hkt
    · exact hinv.thread_inj _ _ _ _ t hj hg hjt hkt
    · exact hinv.thread_inj _ _ _ _ t hj hk hjt hkt
  · intro b hb hlt
    rw [hlen] at hlt
    obtain ⟨j, gj, hj, hjb⟩ := hinv.cover b hb hlt
    by_cases hji : j = i
    · subst hji
      have : gj = g := by rw [hg] at hj; exact (Option.some.inj hj).symm
      subst this
      exact ⟨j, { gj with pc := .attrInit },
        by rw [hgos, lookup_set hg]; exact Or.inl ⟨rfl, rfl⟩, hjb⟩
    · exact ⟨j, gj, by rw [hgos, lookup_set hg]; exact Or.inr ⟨hji, hj⟩, hjb⟩

/-- Class D: `pthread_create` starts the thread. -/
theorem Inv_create {sz : Nat} {h0 : Heap} {s s1 : Sys} {i : Nat} {g : GoFrame} {d : DetachState}
    (hinv : Inv sz h0 s) (hg : s.gos[i]? = some g) (hpc : g.pc = .create)
    (hattr : g.attr = some d)
    (hheap : s1.heap = s.heap) (hthrs : s1.thrs = s.thrs ++ [spawned g.f_ d])
    (hgos : s1.gos = s.gos.set i { g with thread := some s.thrs.length, pc := .done }) :
    Inv sz h0 s1 := by
  have hgi := hinv.go_ok i g hg
  obtain ⟨hth, hdet, a, hfa, hcell⟩ : g.thread = none ∧ g.attr = some .detached ∧
      ∃ a, g.f_ = some a ∧ s.heap[a]? = some (.live sz (some g.f)) := by
    have := hgi.2; simp only [hpc] at this; exact this
  have hd : d = .detached := by rw [hattr] at hdet; exact Option.some.inj hdet
  subst hd
  have hpar : ∀ (j : Nat) (gj : GoFrame) (t : Nat), s.gos[j]? = some gj →
      gj.thread = some t → j ≠ i := by
    rintro j gj t hj hjt rfl
    rw [hg] at hj
    have : g = gj := Option.some.inj hj
    subst this
    rw [hth] at hjt; exact absurd hjt (by simp)
  have hlen : s1.thrs.length = s.thrs.length + 1 := by simp [hthrs]
  refine ⟨?_, ?_, ?_, ?_, ?_, ?_⟩
  · rw [hheap]; exact hinv.base
  · intro j gj hj
    rw [hgos, lookup_set hg] at hj
    rw [hheap, hlen]
    rcases hj with ⟨-, rfl⟩ | ⟨hji, hj⟩
    · refine ⟨hgi.1, ?_⟩
      simp only
      refine ⟨⟨a, hfa⟩, hdet, ?_⟩
      intro t ht
      simp only [Option.some.injEq] at ht
      omega
    · exact GoOk_mono (hinv.go_ok j gj hj) (fun _ _ _ => rfl) (le_refl _) (by omega)
  · intro j k gj gk b hj hk haj hak
    rw [hgos, lookup_set hg] at hj hk
    rcases hj with ⟨rfl, rfl⟩ | ⟨hji, hj⟩ <;> rcases hk with ⟨rfl, rfl⟩ | ⟨hki, hk⟩
    · rfl
    · exact hinv.go_inj _ _ _ _ b hg hk haj hak
    · exact hinv.go_inj _ _ _ _ b hj hg haj hak
    · exact hinv.go_inj _ _ _ _ b hj hk haj hak
  · intro t c hc
    rw [hthrs, lookup_snoc] at hc
    rw [hheap]
    rcases hc with hc | ⟨rfl, rfl⟩
    · obtain ⟨j, gj, b, hj, hjt, hjb, hthr⟩ := hinv.thr_ok t c hc
      have hji : j ≠ i := hpar j gj t hj hjt
      exact ⟨j, gj, b, by rw [hgos, lookup_set hg]; exact Or.inr ⟨hji, hj⟩, hjt, hjb, hthr⟩
    · refine ⟨i, { g with thread := some s.thrs.length, pc := .done }, a,
        by rw [hgos, lookup_set hg]; exact Or.inl ⟨rfl, rfl⟩, rfl, hfa, ?_⟩
      exact ⟨hfa, rfl, rfl, rfl, hcell⟩
  · intro j k gj gk t hj hk hjt hkt
    rw [hgos, lookup_set hg] at hj hk
    rcases hj with ⟨rfl, rfl⟩ | ⟨hji, hj⟩ <;> rcases hk with ⟨rfl, rfl⟩ | ⟨hki, hk⟩
    · rfl
    · simp only [Option.some.injEq] at hjt
      subst hjt
      exact absurd (GoOk_thread (hinv.go_ok _ _ hk) hkt).2 (lt_irrefl _)
    · simp only [Option.some.injEq] at hkt
      subst hkt
      exact absurd (GoOk_thread (hinv.go_ok _ _ hj) hjt).2 (lt_irrefl _)
    · exact hinv.thread_inj _ _ _ _ t hj hk hjt hkt
  · intro b hb hlt
    rw [hheap] at hlt
    obtain ⟨j, gj, hj, hjb⟩ := hinv.cover b hb hlt
    by_cases hji : j = i
    · subst hji
      have : gj = g := by rw [hg] at hj; exact (Option.some.inj hj).symm
      subst this
      exact ⟨j, { gj with thread := some s.thrs.length, pc := .done },
        by rw [hgos, lookup_set hg]; exact Or.inl ⟨rfl, rfl⟩, hjb⟩
    · exact ⟨j, gj, by rw [hgos, lookup_set hg]; exact Or.inr ⟨hji, hj⟩, hjb⟩

/-- Class F: the thread frees its handle. -/
theorem Inv_free {sz : Nat} {h0 : Heap} {s s1 : Sys} {t : Nat} {c : CgFrame} {h : Heap}
    (hinv : Inv sz h0 s) (hc : s.thrs[t]? = some c) (hpc : c.pc = .free)
    (hfr : free s.heap c.f = .ok h)
    (hheap : s1.heap = h) (hgos : s1.gos = s.gos)
    (hthrs : s1.thrs = s.thrs.set t { c with pc := .ret }) :
    Inv sz h0 s1 := by
  obtain ⟨i, g, a, hg, hgt, hga, hthr⟩ := hinv.thr_ok t c hc
  have hgi := hinv.go_ok i g hg
  obtain ⟨harg, hdet, hcf, hpass, hret, hcell⟩ : c.arg = some a ∧ c.detach = .detached ∧
      c.f = some a ∧ c.passed = some g.f ∧ c.retval = none ∧
      s.heap[a]? = some (.live sz (some g.f)) := by
    have := hthr; simp only [ThrOk, hpc] at this; exact this
  have hh : h = s.heap.set a Cell.freed := by
    rcases free_ok hfr with ⟨hn, -⟩ | ⟨b, n, x, hb, -, rfl⟩
    · rw [hcf] at hn; exact absurd hn (by simp)
    · rw [hcf] at hb
      simp only [Option.some.injEq] at hb
      subst hb; rfl
  subst hh
  have hne : ∀ (b : Nat), b ≠ a → s1.heap[b]? = s.heap[b]? := by
    intro b hb; rw [hheap]; exact lookup_set_ne (fun e => hb e.symm)
  have hlen : s1.heap.length = s.heap.length := by rw [hheap, List.length_set]
  have hother : ∀ (j : Nat) (gj : GoFrame) (b : Nat), j ≠ i → s.gos[j]? = some gj →
      gj.f_ = some b → b ≠ a := by
    intro j gj b hji hj hb hba
    subst hba
    exact hji (hinv.go_inj _ _ _ _ _ hj hg hb hga)
  refine ⟨?_, ?_, ?_, ?_, ?_, ?_⟩
  · intro b hb
    rw [hne b (by have := (hgi.1 a hga).1; omega)]; exact hinv.base b hb
  · intro j gj hj
    rw [hgos] at hj
    rw [hthrs, List.length_set]
    refine GoOk_mono (hinv.go_ok j gj hj) ?_ (by omega) (le_refl _)
    intro hnd b hb
    apply hne b
    apply hother j gj b ?_ hj hb
    rintro rfl
    rw [hg] at hj
    have : g = gj := Option.some.inj hj
    subst this
    exact hnd (GoOk_thread hgi hgt).1
  · rw [hgos]; exact hinv.go_inj
  · intro k ck hk
    rw [hthrs, lookup_set hc] at hk
    rw [hgos]
    rcases hk with ⟨rfl, rfl⟩ | ⟨hkt, hk⟩
    · refine ⟨i, g, a, hg, hgt, hga, ?_⟩
      simp only [ThrOk]
      refine ⟨harg, hdet, hcf, hpass, hret, ?_⟩
      rw [hheap, List.getElem?_set]; simp [lookup_lt hcell]
    · obtain ⟨j, gj, b, hj, hjt, hjb, hthrk⟩ := hinv.thr_ok k ck hk
      have hji : j ≠ i := by
        rintro rfl
        rw [hg] at hj
        have : g = gj := Option.some.inj hj
        subst this
        rw [hgt] at hjt
        exact hkt (Option.some.inj hjt).symm
      exact ⟨j, gj, b, hj, hjt, hjb, ThrOk_mono hthrk (hne b (hother j gj b hji hj hjb))⟩
  · rw [hgos]; exact hinv.thread_inj
  · rw [hlen, hgos]; exact hinv.cover

theorem Inv_step {sz : Nat} {h0 : Heap} {s s1 : Sys} {a : Action}
    (hinv : Inv sz h0 s) (hst : Step sz s a s1) : Inv sz h0 s1 := by
  cases hst with
  | callerStore i v =>
    exact ⟨hinv.base, hinv.go_ok, hinv.go_inj, hinv.thr_ok, hinv.thread_inj, hinv.cover⟩
  | callGo i f hf => exact Inv_enterGo hinv f
  | goMalloc i ok g hg hpc =>
    cases ok with
    | true => exact Inv_malloc hinv hg hpc rfl rfl rfl
    | false =>
      have hgi := hinv.go_ok i g hg
      have hgnone : g.f_ = none ∧ g.thread = none := by
        have := hgi.2; simp only [hpc] at this; exact this
      refine Inv_setGo hinv rfl rfl rfl hg hgnone.1.symm rfl rfl ⟨?_, ?_⟩
      · intro a ha; exact absurd ha (by simp [malloc])
      · exact ⟨hgnone.2, fun a ha => absurd ha (by simp [malloc])⟩
  | goStore i ok g h hg hpc hst => exact Inv_store hinv hg hpc hst rfl rfl rfl
  | goAttrInit i ok g hg hpc =>
    have hgi := hinv.go_ok i g hg
    have h2 := hgi.2
    simp only [hpc] at h2
    exact Inv_setGo hinv rfl rfl rfl hg rfl rfl rfl ⟨hgi.1, h2.1, ⟨_, rfl⟩, h2.2⟩
  | goSetDetach i ok g d hg hpc hattr =>
    have hgi := hinv.go_ok i g hg
    have h2 := hgi.2
    simp only [hpc] at h2
    exact Inv_setGo hinv rfl rfl rfl hg rfl rfl rfl ⟨hgi.1, h2.1, rfl, h2.2.2⟩
  | goCreate i g d hg hpc hattr => exact Inv_create hinv hg hpc hattr rfl rfl rfl
  | goCreateFail i g d hg hpc hattr =>
    have hgi := hinv.go_ok i g hg
    have h2 := hgi.2
    simp only [hpc] at h2
    obtain ⟨hth, hdet, a, hfa, -⟩ := h2
    refine Inv_setGo hinv rfl rfl rfl hg rfl rfl rfl ⟨hgi.1, ⟨a, hfa⟩, hdet, ?_⟩
    intro t ht
    rw [hth] at ht; exact absurd ht (by simp)
  | thrCast t o c hc hpc =>
    refine Inv_setThr hinv rfl rfl rfl hc ?_
    intro a d hthr
    simp only [ThrOk, hpc] at hthr
    obtain ⟨h1, h2, h3, h4, h5⟩ := hthr
    exact ⟨h1, h2, h1, h3, h4, h5⟩
  | thrCall t o c d hc hpc hld =>
    refine Inv_setThr hinv rfl rfl rfl hc ?_
    intro a dg hthr
    simp only [ThrOk, hpc] at hthr
    obtain ⟨h1, h2, h3, h4, h5, h6⟩ := hthr
    obtain ⟨b, n, hb, hcell, -⟩ := load_ok hld
    rw [h3] at hb
    simp only [Option.some.injEq] at hb
    subst hb
    rw [h6] at hcell
    simp only [Option.some.injEq, Cell.live.injEq] at hcell
    obtain ⟨-, rfl⟩ := hcell
    exact ⟨h1, h2, h3, rfl, h5, h6⟩
  | thrReturn t o c hc hpc =>
    refine Inv_setThr hinv rfl rfl rfl hc ?_
    intro a d hthr
    simp only [ThrOk, hpc] at hthr
    exact ⟨hthr.1, hthr.2.1, hthr.2.2⟩
  | thrFree t o c h hc hpc hfr => exact Inv_free hinv hc hpc hfr rfl rfl rfl
  | thrRet t o c hc hpc =>
    refine Inv_setThr hinv rfl rfl rfl hc ?_
    intro a d hthr
    simp only [ThrOk, hpc] at hthr
    obtain ⟨h1, h2, h3, h4, h5, h6⟩ := hthr
    exact ⟨h1, h2, h3, h4, rfl, h6⟩

/-- Induction along a schedule: a property that holds initially and is kept by
every transition whose action satisfies `A` holds at the end. -/
theorem run_induct {sz : Nat} (P : Sys → Prop) (A : Action → Prop)
    (hstep : ∀ s a s1, P s → A a → Step sz s a s1 → P s1) :
    ∀ (acts : List Action) (s s1 : Sys), P s → (∀ a ∈ acts, A a) →
      run sz s acts = .ok s1 → P s1 := by
  intro acts
  induction acts with
  | nil =>
    intro s s1 hP _ hrun
    simp only [run, Except.ok.injEq] at hrun
    exact hrun ▸ hP
  | cons a as ih =>
    intro s s1 hP hA hrun
    simp only [run] at hrun
    split at hrun
    · exact absurd hrun (by simp)
    · next s2 hs2 =>
      exact ih s2 s1 (hstep s a s2 hP (hA a (List.mem_cons_self _ _)) (Step_of_step hs2))
        (fun b hb => hA b (List.mem_cons_of_mem _ hb)) hrun

theorem Inv_run {sz : Nat} {h0 : Heap} {vars : List Func} {acts : List Action} {s : Sys}
    (hrun : run sz (init h0 vars) acts = .ok s) : Inv sz h0 s :=
  run_induct (Inv sz h0) (fun _ => True) (fun _ _ _ hP _ hst => Inv_step hP hst)
    acts _ _ (Inv_init sz h0 vars) (fun _ _ => trivial) hrun

/-! ### When every library call succeeds -/

theorem Succ_setGo {s s1 : Sys} {i : Nat} {g g1 : GoFrame} (hs : Succ s)
    (hgos : s1.gos = s.gos.set i g1) (hg : s.gos[i]? = some g)
    (h1 : g1.pc = .done → ∃ t, g1.thread = some t)
    (h2 : g1.pc ≠ .malloc → ∃ a, g1.f_ = some a) : Succ s1 := by
  refine ⟨?_, ?_⟩
  · intro j gj hj hpc
    rw [hgos, lookup_set hg] at hj
    rcases hj with ⟨-, rfl⟩ | ⟨-, hj⟩
    · exact h1 hpc
    · exact hs.created j gj hj hpc
  · intro j gj hj hpc
    rw [hgos, lookup_set hg] at hj
    rcases hj with ⟨-, rfl⟩ | ⟨-, hj⟩
    · exact h2 hpc
    · exact hs.allocated j gj hj hpc

theorem Succ_step {sz : Nat} {s s1 : Sys} {a : Action} (hs : Succ s) (ha : a.succeeds = true)
    (hst : Step sz s a s1) : Succ s1 := by
  cases hst with
  | callerStore i v => exact ⟨hs.created, hs.allocated⟩
  | callGo i f hf =>
    refine ⟨?_, ?_⟩
    · intro j gj hj hpc
      simp only [enterGo, lookup_snoc] at hj
      rcases hj with hj | ⟨-, rfl⟩
      · exact hs.created j gj hj hpc
      · exact absurd hpc (by simp)
    · intro j gj hj hpc
      simp only [enterGo, lookup_snoc] at hj
      rcases hj with hj | ⟨-, rfl⟩
      · exact hs.allocated j gj hj hpc
      · exact absurd hpc (by simp)
  | goMalloc i ok g hg hpc =>
    have hok : ok = true := ha
    subst hok
    exact Succ_setGo hs rfl hg (fun h => absurd h (by simp)) (fun _ => ⟨_, rfl⟩)
  | goStore i ok g h hg hpc hst =>
    exact Succ_setGo hs rfl hg (fun h => absurd h (by simp))
      (fun _ => hs.allocated i g hg (by simp [hpc]))
  | goAttrInit i ok g hg hpc =>
    exact Succ_setGo hs rfl hg (fun h => absurd h (by simp))
      (fun _ => hs.allocated i g hg (by simp [hpc]))
  | goSetDetach i ok g d hg hpc hattr =>
    exact Succ_setGo hs rfl hg (fun h => absurd h (by simp))
      (fun _ => hs.allocated i g hg (by simp [hpc]))
  | goCreate i g d hg hpc hattr =>
    exact Succ_setGo hs rfl hg (fun _ => ⟨_, rfl⟩)
      (fun _ => hs.allocated i g hg (by simp [hpc]))
  | goCreateFail i g d hg hpc hattr => exact absurd ha (by simp [Action.succeeds])
  | thrCast t o c hc hpc => exact ⟨hs.created, hs.allocated⟩
  | thrCall t o c d hc hpc hld => exact ⟨hs.created, hs.allocated⟩
  | thrReturn t o c hc hpc => exact ⟨hs.created, hs.allocated⟩
  | thrFree t o c h hc hpc hfr => exact ⟨hs.created, hs.allocated⟩
  | thrRet t o c hc hpc => exact ⟨hs.created, hs.allocated⟩

theorem Succ_run {sz : Nat} {h0 : Heap} {vars : List Func} {acts : List Action} {s : Sys}
    (hrun : run sz (init h0 vars) acts = .ok s) (hok : ∀ a ∈ acts, a.succeeds = true) :
    Succ s :=
  run_induct Succ (fun a => a.succeeds = true) (fun _ _ _ hP hA hst => Succ_step hP hA hst)
    acts _ _ ⟨by simp [init], by simp [init]⟩ hok hrun

/-- Once all calls and all threads are done, the live blocks are those of `h0`. -/
theorem heap_baseline {sz : Nat} {h0 : Heap} {s : Sys} (hinv : Inv sz h0 s) (hs : Succ s)
    (hgo : ∀ g ∈ s.gos, g.pc = .done) (hthr : ∀ c ∈ s.thrs, c.pc = .done)
    (a n : Nat) (x : Option Func) :
    s.heap[a]? = some (Cell.live n x) ↔ h0[a]? = some (Cell.live n x) := by
  by_cases ha : a < h0.length
  · rw [hinv.base a ha]
  · have hnone : h0[a]? = none := List.getElem?_eq_none (by omega)
    rw [hnone]
    simp only [reduceCtorEq, iff_false]
    intro hcell
    have hlt := lookup_lt hcell
    obtain ⟨i, g, hg, hga⟩ := hinv.cover a (by omega) hlt
    have hgd := hgo g (List.getElem?_mem hg)
    obtain ⟨t, ht⟩ := hs.created i g hg hgd
    have htl := (GoOk_thread (hinv.go_ok i g hg) ht).2
    obtain ⟨j, gj, b, hj, hjt, hjb, hthrok⟩ := hinv.thr_ok t _ (List.getElem?_eq_getElem htl)
    have hji := hinv.thread_inj _ _ _ _ t hj hg hjt ht
    subst hji
    rw [hg] at hj
    have : g = gj := Option.some.inj hj
    subst this
    rw [hga] at hjb
    simp only [Option.some.injEq] at hjb
    subst hjb
    have hcd := hthr _ (List.getElem_mem htl)
    simp only [ThrOk, hcd] at hthrok
    rw [hthrok.2.2.2.2.2] at hcell
    exact absurd hcell (by simp)

/-! ### Absence of undefined behaviour -/

theorem effectsOf_append (who : Tid) (tr tr1 : List (Tid × Event)) :
    effectsOf who (tr ++ tr1) = effectsOf who tr ++ effectsOf who tr1 := by
  simp [effectsOf, List.filterMap_append]

theorem effectsOf_tagged_self (who : Tid) (evs : List Event) :
    effectsOf who (evs.map (fun e => (who, e))) = evs := by
  induction evs with
  | nil => rfl
  | cons e es ih =>
    simp only [effectsOf, List.map_cons, List.filterMap_cons] at ih ⊢
    simp [ih]

theorem effectsOf_tagged_ne {who w : Tid} (hne : w ≠ who) (evs : List Event) :
    effectsOf who (evs.map (fun e => (w, e))) = [] := by
  induction evs with
  | nil => rfl
  | cons e es ih =>
    simp only [effectsOf, List.map_cons, List.filterMap_cons] at ih ⊢
    simp [ih, hne]

theorem EffInv_go {sz : Nat} {s s1 : Sys} {i : Nat} {g g1 : GoFrame} (evs : List Event)
    (hinv : EffInv sz s) (hg : s.gos[i]? = some g)
    (hgos : s1.gos = s.gos.set i g1)
    (htr : s1.trace = s.trace ++ evs.map (fun e => (Tid.go i, e)))
    (hthr : ∀ (t : Nat) c, s1.thrs[t]? = some c →
      s.thrs[t]? = some c ∨ (s.thrs.length ≤ t ∧ c.pc = .cast))
    (hlen : s.thrs.length ≤ s1.thrs.length)
    (heff : goEffects sz g1 = goEffects sz g ++ evs) : EffInv sz s1 := by
  refine ⟨?_, ?_, ?_, ?_⟩
  · intro j gj hj
    rw [hgos, lookup_set hg] at hj
    rw [htr, effectsOf_append]
    rcases hj with ⟨rfl, rfl⟩ | ⟨hji, hj⟩
    · rw [effectsOf_tagged_self, hinv.go_eff _ g hg, heff]
    · rw [effectsOf_tagged_ne (by simpa using fun e => hji e.symm), hinv.go_eff j gj hj,
        List.append_nil]
  · intro j hj
    rw [hgos, List.length_set] at hj
    have hji : i ≠ j := by have := lookup_lt hg; omega
    rw [htr, effectsOf_append, effectsOf_tagged_ne (by simpa using hji), hinv.go_none j hj]
    rfl
  · intro t c hc
    rw [htr, effectsOf_append, effectsOf_tagged_ne (by simp), List.append_nil]
    rcases hthr t c hc with hc | ⟨ht, hpc⟩
    · exact hinv.thr_eff t c hc
    · refine ⟨⟨0, 0⟩, .completed, fun h => absurd hpc h, ?_⟩
      rw [hinv.thr_none t ht]
      simp [cgEffects, hpc]
  · intro t ht
    rw [htr, effectsOf_append, effectsOf_tagged_ne (by simp), List.append_nil]
    exact hinv.thr_none t (le_trans hlen ht)

theorem EffInv_thr {sz : Nat} {s s1 : Sys} {t : Nat} {c c1 : CgFrame} (evs : List Event)
    (hinv : EffInv sz s) (hc : s.thrs[t]? = some c)
    (hgos : s1.gos = s.gos) (hthrs : s1.thrs = s.thrs.set t c1)
    (htr : s1.trace = s.trace ++ evs.map (fun e => (Tid.thr t, e)))
    (heff : ∀ d o, (c.pc ≠ .cast → c.pc ≠ .call → c.passed = some d) →
      ∃ d1 o1, (c1.pc ≠ .cast → c1.pc ≠ .call → c1.passed = some d1) ∧
        cgEffects c1 d1 o1 = cgEffects c d o ++ evs) : EffInv sz s1 := by
  refine ⟨?_, ?_, ?_, ?_⟩
  · intro j gj hj
    rw [hgos] at hj
    rw [htr, effectsOf_append, effectsOf_tagged_ne (by simp), List.append_nil]
    exact hinv.go_eff j gj hj
  · intro j hj
    rw [hgos] at hj
    rw [htr, effectsOf_append, effectsOf_tagged_ne (by simp), List.append_nil]
    exact hinv.go_none j hj
  · intro k ck hk
    rw [hthrs, lookup_set hc] at hk
    rw [htr, effectsOf_append]
    rcases hk with ⟨rfl, rfl⟩ | ⟨hkt, hk⟩
    · obtain ⟨d, o, hd, he⟩ := hinv.thr_eff _ c hc
      obtain ⟨d1, o1, hd1, he1⟩ := heff d o hd
      exact ⟨d1, o1, hd1, by rw [effectsOf_tagged_self, he, he1]⟩
    · rw [effectsOf_tagged_ne (by simpa using fun e => hkt e.symm), List.append_nil]
      exact hinv.thr_eff k ck hk
  · intro k hk
    rw [hthrs, List.length_set] at hk
    have hkt : t ≠ k := by have := lookup_lt hc; omega
    rw [htr, effectsOf_append, effectsOf_tagged_ne (by simpa using hkt), List.append_nil]
    exact hinv.thr_none k hk

theorem EffInv_step {sz : Nat} {h0 : Heap} {s s1 : Sys} {a : Action}
    (hI : Inv sz h0 s) (hinv : EffInv sz s) (hst : Step sz s a s1) : EffInv sz s1 := by
  cases hst with
  | callerStore i v => exact ⟨hinv.go_eff, hinv.go_none, hinv.thr_eff, hinv.thr_none⟩
  | callGo i f hf =>
    refine ⟨?_, ?_, hinv.thr_eff, hinv.thr_none⟩
    · intro j gj hj
      simp only [enterGo, lookup_snoc] at hj
      rcases hj with hj | ⟨rfl, rfl⟩
      · exact hinv.go_eff j gj hj
      · exact hinv.go_none _ (le_refl _)
    · intro j hj
      simp only [enterGo, List.length_append, List.length_singleton] at hj
      exact hinv.go_none j (by omega)
  | goMalloc i ok g hg hpc =>
    exact EffInv_go [.malloc sz (malloc s.heap sz ok).2] hinv hg rfl rfl
      (fun _ _ h => Or.inl h) (le_refl _) (by simp [goEffects, hpc])
  | goStore i ok g h hg hpc hst =>
    exact EffInv_go [.store g.f_ g.f] hinv hg rfl rfl
      (fun _ _ h => Or.inl h) (le_refl _) (by simp [goEffects, hpc])
  | goAttrInit i ok g hg hpc =>
    exact EffInv_go [.attr_init] hinv hg rfl rfl
      (fun _ _ h => Or.inl h) (le_refl _) (by simp [goEffects, hpc])
  | goSetDetach i ok g d hg hpc hattr =>
    exact EffInv_go [.attr_setdetachstate .detached] hinv hg rfl rfl
      (fun _ _ h => Or.inl h) (le_refl _) (by simp [goEffects, hpc])
  | goCreate i g d hg hpc hattr =>
    have h2 := (hI.go_ok i g hg).2
    simp only [hpc] at h2
    have hd : d = .detached := by rw [hattr] at h2; exact Option.some.inj h2.2.1
    subst hd
    refine EffInv_go [.pthread_create .call_gofunction g.f_ .detached true] hinv hg
      rfl rfl ?_ (by simp) (by simp [goEffects, hpc])
    intro t c hc
    rw [lookup_snoc] at hc
    rcases hc with hc | ⟨rfl, rfl⟩
    · exact Or.inl hc
    · exact Or.inr ⟨le_refl _, rfl⟩
  | goCreateFail i g d hg hpc hattr =>
    have h2 := (hI.go_ok i g hg).2
    simp only [hpc] at h2
    have hd : d = .detached := by rw [hattr] at h2; exact Option.some.inj h2.2.1
    subst hd
    exact EffInv_go [.pthread_create .call_gofunction g.f_ .detached false] hinv hg
      rfl rfl (fun _ _ h => Or.inl h) (le_refl _) (by simp [goEffects, hpc, h2.1])
  | thrCast t o c hc hpc =>
    refine EffInv_thr [] hinv hc rfl rfl (by simp) ?_
    intro d o1 _
    exact ⟨d, o1, fun _ h => absurd rfl h, by simp [cgEffects, hpc]⟩
  | thrCall t o c d hc hpc hld =>
    refine EffInv_thr [.load c.f d, .guardedcall0 d] hinv hc rfl rfl rfl ?_
    intro d0 o1 _
    exact ⟨d, o1, fun _ _ => rfl, by simp [cgEffects, hpc]⟩
  | thrReturn t o c hc hpc =>
    refine EffInv_thr [.guardedreturn o] hinv hc rfl rfl rfl ?_
    intro d o1 hd
    exact ⟨d, o, fun _ _ => hd (by simp [hpc]) (by simp [hpc]), by simp [cgEffects, hpc]⟩
  | thrFree t o c h hc hpc hfr =>
    refine EffInv_thr [.free c.f] hinv hc rfl rfl rfl ?_
    intro d o1 hd
    exact ⟨d, o1, fun _ _ => hd (by simp [hpc]) (by simp [hpc]), by simp [cgEffects, hpc]⟩
  | thrRet t o c hc hpc =>
    refine EffInv_thr [.ret none] hinv hc rfl rfl rfl ?_
    intro d o1 hd
    exact ⟨d, o1, fun _ _ => hd (by simp [hpc]) (by simp [hpc]), by simp [cgEffects, hpc]⟩

/-! ### The history of a handle -/

theorem history_append (a : Nat) (tr tr1 : List (Tid × Event)) :
    history a (tr ++ tr1) = history a tr ++ history a tr1 := by
  simp [history]

theorem lifecycle_congr {sz : Nat} {thrs thrs1 : List CgFrame} {i : Nat} {g : GoFrame} {a : Nat}
    (h : ∀ t, g.thread = some t → thrs1[t]? = thrs[t]?) :
    lifecycle sz thrs1 i g a = lifecycle sz thrs i g a := by
  unfold lifecycle
  cases hp : g.pc <;> simp only
  cases ht : g.thread with
  | none => rfl
  | some t => simp only [h t ht]

theorem HistInv_go {sz : Nat} {h0 : Heap} {s s1 : Sys} {i : Nat} {g g1 : GoFrame}
    (evs : List (Tid × Event))
    (hI : Inv sz h0 s) (hinv : HistInv sz h0 s) (hg : s.gos[i]? = some g)
    (hgos : s1.gos = s.gos.set i g1)
    (htr : s1.trace = s.trace ++ evs)
    (hthr : ∀ t, t < s.thrs.length → s1.thrs[t]? = s.thrs[t]?)
    (hlen : s.heap.length ≤ s1.heap.length)
    (hown : ∀ a, g1.f_ = some a →
      history a s.trace ++ history a evs = lifecycle sz s1.thrs i g1 a)
    (hoth : ∀ b, g1.f_ ≠ some b → history b evs = [])
    (hne : ∀ (j : Nat) gj b, j ≠ i → s.gos[j]? = some gj → gj.f_ = some b →
      g1.f_ ≠ some b)
    (hh0 : ∀ b, g1.f_ = some b → h0.length ≤ b ∧ b < s1.heap.length) :
    HistInv sz h0 s1 := by
  refine ⟨?_, ?_⟩
  · intro j gj b hj hjb
    rw [hgos, lookup_set hg] at hj
    rw [htr, history_append]
    rcases hj with ⟨rfl, rfl⟩ | ⟨hji, hj⟩
    · exact hown b hjb
    · rw [hoth b (hne j gj b hji hj hjb), List.append_nil, hinv.owned j gj b hj hjb]
      exact (lifecycle_congr (fun t ht => hthr t (GoOk_thread (hI.go_ok j gj hj) ht).2)).symm
  · intro b hb
    rw [htr, history_append, hinv.foreign b (by omega), hoth b, List.append_nil]
    intro hc
    have := hh0 b hc
    omega

theorem HistInv_thr {sz : Nat} {h0 : Heap} {s s1 : Sys} {t : Nat} {c c1 : CgFrame}
    (evs : List (Tid × Event))
    (hI : Inv sz h0 s) (hinv : HistInv sz h0 s) (hc : s.thrs[t]? = some c)
    (hgos : s1.gos = s.gos) (hthrs : s1.thrs = s.thrs.set t c1)
    (htr : s1.trace = s.trace ++ evs)
    (hlen : s1.heap.length = s.heap.length)
    (hown : ∀ a d, ThrOk sz s.heap c a d →
      thrAccesses t a d c1 = thrAccesses t a d c ++ history a evs ∧
      ∀ b, b ≠ a → history b evs = []) :
    HistInv sz h0 s1 := by
  obtain ⟨i, g, a, hg, hgt, hga, hthr⟩ := hI.thr_ok t c hc
  obtain ⟨hacc, hoth⟩ := hown a g.f hthr
  have hgd := (GoOk_thread (hI.go_ok i g hg) hgt).1
  refine ⟨?_, ?_⟩
  · intro j gj b hj hjb
    rw [hgos] at hj
    rw [htr, history_append, hinv.owned j gj b hj hjb]
    by_cases hji : j = i
    · subst hji
      rw [hg] at hj
      have : g = gj := Option.some.inj hj
      subst this
      rw [hga] at hjb
      have : a = b := Option.some.inj hjb
      subst this
      have e1 : s1.thrs[t]? = some c1 := by
        rw [hthrs, lookup_set hc]; exact Or.inl ⟨rfl, rfl⟩
      simp only [lifecycle, hgd, hgt, hc, e1, hacc, List.append_assoc]
    · have hba : b ≠ a := by
        rintro rfl
        exact hji (hI.go_inj _ _ _ _ _ hj hg hjb hga)
      rw [hoth b hba, List.append_nil]
      refine (lifecycle_congr ?_).symm
      intro tj htj
      have : tj ≠ t := by
        rintro rfl
        exact hji (hI.thread_inj _ _ _ _ _ hj hg htj hgt)
      rw [hthrs]; exact lookup_set_ne (fun e => this e.symm)
  · intro b hb
    rw [hlen] at hb
    rw [htr, history_append, hinv.foreign b hb, hoth b, List.nil_append]
    have := (hI.go_ok i g hg).1 a hga
    omega

theorem history_single (a : Nat) (e : Tid × Event) :
    history a [e] = if touches a e.2 then [e] else [] := by
  simp [history, List.filter_cons]

theorem HistInv_step {sz : Nat} {h0 : Heap} {s s1 : Sys} {a : Action}
    (hI : Inv sz h0 s) (hinv : HistInv sz h0 s) (hst : Step sz s a s1) : HistInv sz h0 s1 := by
  have hself : ∀ (i : Nat) (g : GoFrame), s.gos[i]? = some g →
      ∀ (j : Nat) gj b, j ≠ i → s.gos[j]? = some gj → gj.f_ = some b → g.f_ ≠ some b :=
    fun i g hg j gj b hji hj hjb hgb => hji (hI.go_inj _ _ _ _ _ hj hg hjb hgb)
  cases hst with
  | callerStore i v => exact ⟨hinv.owned, hinv.foreign⟩
  | callGo i f hf =>
    refine ⟨?_, hinv.foreign⟩
    intro j gj b hj hjb
    simp only [enterGo, lookup_snoc] at hj
    rcases hj with hj | ⟨-, rfl⟩
    · exact hinv.owned j gj b hj hjb
    · exact absurd hjb (by simp)
  | goMalloc i ok g hg hpc =>
    have hgi := hI.go_ok i g hg
    have hgnone : g.f_ = none ∧ g.thread = none := by
      have := hgi.2; simp only [hpc] at this; exact this
    cases ok with
    | false =>
      refine HistInv_go [(.go i, .malloc sz none)] hI hinv hg rfl rfl (fun _ _ => rfl)
        (le_refl _) ?_ ?_ ?_ ?_
      · intro a ha; exact absurd ha (by simp [malloc])
      · intro b _; simp [history_single, touches]
      · intro j gj b _ _ _; simp [malloc]
      · intro b hb; exact absurd hb (by simp [malloc])
    | true =>
      refine HistInv_go [(.go i, .malloc sz (some s.heap.length))] hI hinv hg rfl rfl
        (fun _ _ => rfl) (by simp [malloc]) ?_ ?_ ?_ ?_
      · intro a ha
        simp only [malloc, if_true, Option.some.injEq] at ha
        subst ha
        rw [hinv.foreign _ (Or.inr (le_refl _))]
        simp [history_single, touches, lifecycle]
      · intro b hb
        simp only [malloc, if_true, ne_eq, Option.some.injEq] at hb
        simp [history_single, touches, hb]
      · intro j gj b _ hj hjb
        simp only [malloc, if_true, ne_eq, Option.some.injEq]
        have := ((hI.go_ok j gj hj).1 b hjb).2
        omega
      · intro b hb
        simp only [malloc, if_true, Option.some.injEq] at hb
        subst hb
        exact ⟨hI.base_le, by simp [malloc]⟩
  | goStore i ok g h hg hpc hst =>
    have hgi := hI.go_ok i g hg
    obtain ⟨a, n, c, hfa, hcell, -, rfl⟩ := store_ok hst
    refine HistInv_go [(.go i, .store g.f_ g.f)] hI hinv hg rfl rfl (fun _ _ => rfl)
      (by simp) ?_ ?_ (hself i g hg) ?_
    · intro b hb
      have hb : g.f_ = some b := hb
      rw [hinv.owned i g b hg hb]
      simp [history_single, touches, lifecycle, hpc, hb]
    · intro b hb
      simp only [ne_eq] at hb
      simp [history_single, touches, hb]
    · intro b hb
      have := hgi.1 b hb
      simpa using this
  | goAttrInit i ok g hg hpc =>
    have hgi := hI.go_ok i g hg
    refine HistInv_go [(.go i, .attr_init)] hI hinv hg rfl rfl (fun _ _ => rfl)
      (le_refl _) ?_ ?_ (hself i g hg) hgi.1
    · intro b hb
      rw [hinv.owned i g b hg hb]
      simp [history_single, touches, lifecycle, hpc]
    · intro b _; simp [history_single, touches]
  | goSetDetach i ok g d hg hpc hattr =>
    have hgi := hI.go_ok i g hg
    refine HistInv_go [(.go i, .attr_setdetachstate .detached)] hI hinv hg rfl rfl
      (fun _ _ => rfl) (le_refl _) ?_ ?_ (hself i g hg) hgi.1
    · intro b hb
      rw [hinv.owned i g b hg hb]
      simp [history_single, touches, lifecycle, hpc]
    · intro b _; simp [history_single, touches]
  | goCreate i g d hg hpc hattr =>
    have hgi := hI.go_ok i g hg
    have h2 := hgi.2
    simp only [hpc] at h2
    have hd : d = .detached := by rw [hattr] at h2; exact Option.some.inj h2.2.1
    subst hd
    refine HistInv_go [(.go i, .pthread_create .call_gofunction g.f_ .detached true)] hI hinv hg
      rfl rfl (fun t ht => List.getElem?_append_left ht) (le_refl _) ?_ ?_ (hself i g hg) hgi.1
    · intro b hb
      have hb : g.f_ = some b := hb
      rw [hinv.owned i g b hg hb]
      simp [history_single, touches, lifecycle, hpc, hb, thrAccesses, spawned]
    · intro b hb
      simp only [ne_eq] at hb
      simp [history_single, touches, hb]
  | goCreateFail i g d hg hpc hattr =>
    have hgi := hI.go_ok i g hg
    have h2 := hgi.2
    simp only [hpc] at h2
    have hd : d = .detached := by rw [hattr] at h2; exact Option.some.inj h2.2.1
    subst hd
    refine HistInv_go [(.go i, .pthread_create .call_gofunction g.f_ .detached false)] hI hinv hg
      rfl rfl (fun _ _ => rfl) (le_refl _) ?_ ?_ (hself i g hg) hgi.1
    · intro b hb
      have hb : g.f_ = some b := hb
      rw [hinv.owned i g b hg hb]
      simp [history_single, touches, lifecycle, hpc, hb, h2.1]
    · intro b hb
      simp only [ne_eq] at hb
      simp [history_single, touches, hb]
  | thrCast t o c hc hpc =>
    refine HistInv_thr [] hI hinv hc rfl rfl (by simp) rfl ?_
    intro a d _
    exact ⟨by simp [thrAccesses, hpc, history], fun _ _ => rfl⟩
  | thrCall t o c d hc hpc hld =>
    refine HistInv_thr [(.thr t, .load c.f d), (.thr t, .guardedcall0 d)] hI hinv hc rfl rfl
      rfl rfl ?_
    intro a dg hthr
    simp only [ThrOk, hpc] at hthr
    obtain ⟨h1, h2, h3, h4, h5, h6⟩ := hthr
    obtain ⟨b, n, hb, hcell, -⟩ := load_ok hld
    rw [h3] at hb
    simp only [Option.some.injEq] at hb
    subst hb
    rw [h6] at hcell
    simp only [Option.some.injEq, Cell.live.injEq] at hcell
    obtain ⟨-, rfl⟩ := hcell
    refine ⟨by simp [thrAccesses, hpc, history, touches, h3], ?_⟩
    intro b hb
    have hab : ¬ a = b := fun e => hb e.symm
    simp [history, touches, h3, hab]
  | thrReturn t o c hc hpc =>
    refine HistInv_thr [(.thr t, .guardedreturn o)] hI hinv hc rfl rfl rfl rfl ?_
    intro a d _
    exact ⟨by simp [thrAccesses, hpc, history, touches], fun _ _ => by simp [history, touches]⟩
  | thrFree t o c h hc hpc hfr =>
    have hlen : h.length = s.heap.length := by
      rcases free_ok hfr with ⟨-, rfl⟩ | ⟨b, n, x, -, -, rfl⟩
      · rfl
      · simp
    refine HistInv_thr [(.thr t, .free c.f)] hI hinv hc rfl rfl rfl hlen ?_
    intro a d hthr
    simp only [ThrOk, hpc] at hthr
    obtain ⟨h1, h2, h3, h4, h5, h6⟩ := hthr
    refine ⟨by simp [thrAccesses, hpc, history, touches, h3], ?_⟩
    intro b hb
    have hab : ¬ a = b := fun e => hb e.symm
    simp [history, touches, h3, hab]
  | thrRet t o c hc hpc =>
    refine HistInv_thr [(.thr t, .ret none)] hI hinv hc rfl rfl rfl rfl ?_
    intro a d _
    exact ⟨by simp [thrAccesses, hpc, history, touches], fun _ _ => by simp [history, touches]⟩

/-! ### Counting calls, threads and guarded calls -/

theorem filterMap_cons_toList {α β : Type} (F : α → Option β) (z : α) (zs : List α) :
    (z :: zs).filterMap F = (F z).toList ++ zs.filterMap F := by
  cases h : F z <;> simp [List.filterMap_cons, h]

theorem perm_filterMap_set {α β : Type} (F : α → Option β) :
    ∀ (l : List α) (i : Nat) (x y : α), l[i]? = some x →
      ((F x).toList ++ (l.set i y).filterMap F).Perm ((F y).toList ++ l.filterMap F) := by
  intro l
  induction l with
  | nil => intro i x y h; simp at h
  | cons z zs ih =>
    intro i x y h
    cases i with
    | zero =>
      simp only [List.getElem?_cons_zero, Option.some.injEq] at h
      subst h
      simp only [List.set_cons_zero, filterMap_cons_toList]
      rw [← List.append_assoc, ← List.append_assoc]
      exact List.Perm.append_right _ List.perm_append_comm
    | succ k =>
      simp only [List.getElem?_cons_succ] at h
      simp only [List.set_cons_succ, filterMap_cons_toList]
      have h1 := ih k x y h
      exact (List.perm_append_comm_assoc _ _ _).trans
        ((List.Perm.append_left _ h1).trans (List.perm_append_comm_assoc _ _ _))

theorem perm_filterMap_set_same {α β : Type} (F : α → Option β) {l : List α} {i : Nat}
    {x : α} (y : α) (h : l[i]? = some x) (hF : F y = F x) :
    ((l.set i y).filterMap F).Perm (l.filterMap F) := by
  have := perm_filterMap_set F l i x y h
  rw [hF] at this
  exact (List.perm_append_left_iff _).1 this

theorem perm_filterMap_set_new {α β : Type} (F : α → Option β) {l : List α} {i : Nat}
    {x : α} (y : α) {b : β} (h : l[i]? = some x) (hx : F x = none) (hy : F y = some b) :
    ((l.set i y).filterMap F).Perm (l.filterMap F ++ [b]) := by
  have := perm_filterMap_set F l i x y h
  rw [hx, hy] at this
  simp only [Option.toList_none, List.nil_append, Option.toList_some, List.singleton_append] at this
  exact this.trans (List.perm_append_singleton b _).symm

theorem countP_set_same {α : Type} (p : α → Bool) {l : List α} {i : Nat} {x : α} (y : α)
    (h : l[i]? = some x) (hp : p y = p x) : (l.set i y).countP p = l.countP p := by
  obtain ⟨hi, hx⟩ := List.getElem?_eq_some_iff.1 h
  rw [List.countP_set p l i y hi, hx, hp]
  by_cases hpx : p x = true
  · have hpos : 0 < l.countP p := List.countP_pos_iff.2 ⟨x, List.getElem?_mem h, hpx⟩
    simp only [hpx, if_true]
    omega
  · simp [hpx]

theorem countP_set_new {α : Type} (p : α → Bool) {l : List α} {i : Nat} {x : α} (y : α)
    (h : l[i]? = some x) (hx : p x = false) (hy : p y = true) :
    (l.set i y).countP p = l.countP p + 1 := by
  obtain ⟨hi, hxe⟩ := List.getElem?_eq_some_iff.1 h
  rw [List.countP_set p l i y hi, hxe, hx, hy]
  simp

theorem guardedArgs_append (tr tr1 : List (Tid × Event)) :
    guardedArgs (tr ++ tr1) = guardedArgs tr ++ guardedArgs tr1 := by
  simp [guardedArgs, List.filterMap_append]

theorem completedCalls_append (tr tr1 : List (Tid × Event)) :
    completedCalls (tr ++ tr1) = completedCalls tr + completedCalls tr1 := by
  simp [completedCalls, List.countP_append]

theorem CountInv_go {s s1 : Sys} {i : Nat} {g g1 : GoFrame} (evs : List (Tid × Event))
    (hinv : CountInv s) (hg : s.gos[i]? = some g)
    (hgos : s1.gos = s.gos.set i g1) (hthrs : s1.thrs = s.thrs)
    (htr : s1.trace = s.trace ++ evs) (hth : g1.thread = g.thread)
    (h1 : guardedArgs evs = []) (h2 : completedCalls evs = 0) : CountInv s1 := by
  refine ⟨?_, ?_, ?_⟩
  · rw [hgos, hthrs]
    exact (perm_filterMap_set_same _ g1 hg hth).trans hinv.ids
  · rw [htr, hthrs, guardedArgs_append, h1, List.append_nil]; exact hinv.args
  · rw [htr, hthrs, completedCalls_append, h2, Nat.add_zero]; exact hinv.returns

theorem CountInv_thr {s s1 : Sys} {t : Nat} {c c1 : CgFrame} (evs : List (Tid × Event))
    (hinv : CountInv s) (hc : s.thrs[t]? = some c)
    (hgos : s1.gos = s.gos) (hthrs : s1.thrs = s.thrs.set t c1)
    (htr : s1.trace = s.trace ++ evs) (hpass : c1.passed = c.passed)
    (hcomp : c1.completed = c.completed)
    (h1 : guardedArgs evs = []) (h2 : completedCalls evs = 0) : CountInv s1 := by
  refine ⟨?_, ?_, ?_⟩
  · rw [hgos, hthrs, List.length_set]; exact hinv.ids
  · rw [htr, hthrs, guardedArgs_append, h1, List.append_nil]
    exact hinv.args.trans (perm_filterMap_set_same _ c1 hc hpass).symm
  · rw [htr, hthrs, completedCalls_append, h2, Nat.add_zero, countP_set_same _ c1 hc hcomp]
    exact hinv.returns

theorem CountInv_step {sz : Nat} {h0 : Heap} {s s1 : Sys} {a : Action}
    (hI : Inv sz h0 s) (hinv : CountInv s) (hst : Step sz s a s1) : CountInv s1 := by
  cases hst with
  | callerStore i v => exact ⟨hinv.ids, hinv.args, hinv.returns⟩
  | callGo i f hf =>
    refine ⟨?_, hinv.args, hinv.returns⟩
    simp only [enterGo, List.filterMap_append, List.filterMap_cons, List.filterMap_nil,
      List.append_nil]
    exact hinv.ids
  | goMalloc i ok g hg hpc =>
    exact CountInv_go [(.go i, .malloc sz (malloc s.heap sz ok).2)] hinv hg rfl rfl rfl rfl
      rfl rfl
  | goStore i ok g h hg hpc hst =>
    exact CountInv_go [(.go i, .store g.f_ g.f)] hinv hg rfl rfl rfl rfl rfl rfl
  | goAttrInit i ok g hg hpc =>
    exact CountInv_go [(.go i, .attr_init)] hinv hg rfl rfl rfl rfl rfl rfl
  | goSetDetach i ok g d hg hpc hattr =>
    exact CountInv_go [(.go i, .attr_setdetachstate .detached)] hinv hg rfl rfl rfl rfl rfl rfl
  | goCreate i g d hg hpc hattr =>
    have h2 := (hI.go_ok i g hg).2
    simp only [hpc] at h2
    refine ⟨?_, ?_, ?_⟩
    · simp only [List.length_append, List.length_singleton, List.range_succ]
      exact (perm_filterMap_set_new (fun g => g.thread)
        { g with thread := some s.thrs.length, pc := .done } hg h2.1 rfl).trans
        (List.Perm.append_right _ hinv.ids)
    · simp only [guardedArgs_append, List.filterMap_append]
      simpa [guardedArgs, spawned] using hinv.args
    · simp only [completedCalls_append, List.countP_append]
      simpa [completedCalls, spawned, CgFrame.completed] using hinv.returns
  | goCreateFail i g d hg hpc hattr =>
    exact CountInv_go [(.go i, .pthread_create .call_gofunction g.f_ d false)] hinv hg
      rfl rfl rfl rfl rfl rfl
  | thrCast t o c hc hpc =>
    exact CountInv_thr [] hinv hc rfl rfl (by simp) rfl (by simp [CgFrame.completed, hpc])
      rfl rfl
  | thrCall t o c d hc hpc hld =>
    obtain ⟨j, gj, a, -, -, -, hthr⟩ := hI.thr_ok t c hc
    simp only [ThrOk, hpc] at hthr
    refine ⟨?_, ?_, ?_⟩
    · simp only [List.length_set]; exact hinv.ids
    · simp only [guardedArgs_append]
      have e : guardedArgs [(Tid.thr t, Event.load c.f d), (Tid.thr t, Event.guardedcall0 d)]
          = [d] := rfl
      rw [e]
      exact (List.Perm.append_right _ hinv.args).trans
        (perm_filterMap_set_new (fun c => c.passed) { c with passed := some d, pc := .inCall }
          hc hthr.2.2.2.1 rfl).symm
    · simp only [completedCalls_append]
      rw [countP_set_same _ { c with passed := some d, pc := .inCall } hc
        (by simp [CgFrame.completed, hpc])]
      simpa [completedCalls] using hinv.returns
  | thrReturn t o c hc hpc =>
    refine ⟨?_, ?_, ?_⟩
    · simp only [List.length_set]; exact hinv.ids
    · simp only [guardedArgs_append]
      have e : guardedArgs [(Tid.thr t, Event.guardedreturn o)] = [] := rfl
      rw [e, List.append_nil]
      exact hinv.args.trans (perm_filterMap_set_same _ { c with pc := .free } hc rfl).symm
    · simp only [completedCalls_append]
      rw [countP_set_new _ { c with pc := .free } hc (by simp [CgFrame.completed, hpc])
        (by simp [CgFrame.completed])]
      have e : completedCalls [(Tid.thr t, Event.guardedreturn o)] = 1 := rfl
      rw [e, hinv.returns]
  | thrFree t o c h hc hpc hfr =>
    exact CountInv_thr [(.thr t, .free c.f)] hinv hc rfl rfl rfl rfl
      (by simp [CgFrame.completed, hpc]) rfl rfl
  | thrRet t o c hc hpc =>
    exact CountInv_thr [(.thr t, .ret none)] hinv hc rfl rfl rfl rfl
      (by simp [CgFrame.completed, hpc]) rfl rfl

/-! ### All invariants along a schedule -/

theorem Good_init (sz : Nat) (h0 : Heap) (vars : List Func) : Good sz h0 (init h0 vars) := by
  refine ⟨Inv_init sz h0 vars, ⟨?_, ?_, ?_, ?_⟩, ⟨?_, ?_⟩, ⟨?_, ?_, ?_⟩⟩ <;>
    simp [init, effectsOf, history, guardedArgs, completedCalls]

theorem Good_step {sz : Nat} {h0 : Heap} {s s1 : Sys} {a : Action}
    (h : Good sz h0 s) (hst : Step sz s a s1) : Good sz h0 s1 :=
  ⟨Inv_step h.inv hst, EffInv_step h.inv h.eff hst, HistInv_step h.inv h.hist hst,
    CountInv_step h.inv h.count hst⟩

theorem Good_run {sz : Nat} {h0 : Heap} {vars : List Func} {acts : List Action} {s : Sys}
    (hrun : run sz (init h0 vars) acts = .ok s) : Good sz h0 s :=
  run_induct (Good sz h0) (fun _ => True) (fun _ _ _ hP _ hst => Good_step hP hst)
    acts _ _ (Good_init sz h0 vars) (fun _ _ => trivial) hrun

theorem Good_run_from {sz : Nat} {h0 : Heap} {acts : List Action} {s s1 : Sys}
    (h : Good sz h0 s) (hrun : run sz s acts = .ok s1) : Good sz h0 s1 :=
  run_induct (Good sz h0) (fun _ => True) (fun _ _ _ hP _ hst => Good_step hP hst)
    acts _ _ h (fun _ _ => trivial) hrun

/-! ### The two functions run without interruption -/

theorem run_cons {sz : Nat} {s s1 : Sys} {a : Action} (as : List Action)
    (h : step sz s a = .ok s1) : run sz s (a :: as) = run sz s1 as := by
  simp [run, h]

theorem lookup_set_self {α : Type} {l : List α} {i : Nat} {x : α} (y : α) (h : l[i]? = some x) :
    (l.set i y)[i]? = some y :=
  (lookup_set h).2 (Or.inl ⟨rfl, rfl⟩)

/-- The body of `Go` run without interruption, when `malloc` succeeds. -/
theorem Go_eq (sz : Nat) (s : Sys) (f : Func) (createOk : Bool) :
    Go sz s f true createOk = .ok
      { callerVars := s.callerVars
        heap := s.heap ++ [Cell.live sz (some f)]
        gos := s.gos ++ [returned f (some s.heap.length)
          (if createOk then some s.thrs.length else none)]
        thrs :=
          (if createOk then s.thrs ++ [spawned (some s.heap.length) .detached] else s.thrs)
        trace := s.trace ++
          [(.go s.gos.length, .malloc sz (some s.heap.length)),
           (.go s.gos.length, .store (some s.heap.length) f),
           (.go s.gos.length, .attr_init),
           (.go s.gos.length, .attr_setdetachstate .detached),
           (.go s.gos.length, .pthread_create .call_gofunction (some s.heap.length) .detached
              createOk)] } := by
  cases createOk <;>
  simp [Go, run, step, Go_step, enterGo, malloc, store, returned]

/-- The body of `call_gofunction` run without interruption on a live handle. -/
theorem call_gofunction_eq (sz : Nat) (s : Sys) (t : Nat) (o : Outcome) (c : CgFrame)
    (a n : Nat) (d : Func) (hc : s.thrs[t]? = some c) (hpc : c.pc = .cast)
    (harg : c.arg = some a) (hcell : s.heap[a]? = some (Cell.live n (some d))) (hsz : sz ≤ n) :
    call_gofunction sz s t o = .ok
      { callerVars := s.callerVars
        heap := s.heap.set a Cell.freed
        gos := s.gos
        thrs := s.thrs.set t { c with f := some a, passed := some d, pc := .done, retval := some none }
        trace := s.trace ++
          [(.thr t, .load (some a) d), (.thr t, .guardedcall0 d), (.thr t, .guardedreturn o),
           (.thr t, .free (some a)), (.thr t, .ret none)] } := by
  have ht : t < s.thrs.length := lookup_lt hc
  simp [call_gofunction, run, step, call_gofunction_step, hc, hpc, harg, load, free, hcell, hsz,
    ht]

/-! ### Every task is run once -/

/-- Once its thread has finished, a call of `Go` finds its own descriptor in the
argument slot of that thread. -/
theorem passed_of_thread {sz : Nat} {h0 : Heap} {s : Sys} (hinv : Inv sz h0 s)
    {i : Nat} {g : GoFrame} {t : Nat} {c : CgFrame} (hg : s.gos[i]? = some g)
    (ht : g.thread = some t) (hc : s.thrs[t]? = some c) :
    ∃ a, g.f_ = some a ∧ ThrOk sz s.heap c a g.f := by
  obtain ⟨j, gj, a, hj, hjt, hja, hthr⟩ := hinv.thr_ok t c hc
  have hji := hinv.thread_inj _ _ _ _ t hj hg hjt ht
  subst hji
  rw [hg] at hj
  have : g = gj := Option.some.inj hj
  subst this
  exact ⟨a, hja, hthr⟩

theorem mem_effectsOf {who : Tid} {e : Event} {tr : List (Tid × Event)} :
    e ∈ effectsOf who tr ↔ (who, e) ∈ tr := by
  simp only [effectsOf, List.mem_filterMap]
  constructor
  · rintro ⟨⟨w, e1⟩, hm, h⟩
    by_cases hw : w = who
    · simp only [hw, if_true, Option.some.injEq] at h
      subst hw; subst h; exact hm
    · simp [hw] at h
  · intro hm
    exact ⟨(who, e), hm, by simp⟩

theorem storesTo_history (a : Nat) (tr : List (Tid × Event)) :
    storesTo a (history a tr) = storesTo a tr := by
  simp only [storesTo, history, List.filter_filter]
  apply List.filter_congr
  rintro ⟨w, e⟩ _
  cases e <;> simp [touches]

theorem loadsFrom_history (a : Nat) (tr : List (Tid × Event)) :
    loadsFrom a (history a tr) = loadsFrom a tr := by
  simp only [loadsFrom, history, List.filter_filter]
  apply List.filter_congr
  rintro ⟨w, e⟩ _
  cases e <;> simp [touches]

/-- The parameter of an activation of `Go` never changes. -/
theorem param_stable {sz : Nat} {s s1 : Sys} {a : Action} {n : Nat} {f : Func}
    (h : ∃ g, s.gos[n]? = some g ∧ g.f = f) (hst : Step sz s a s1) :
    ∃ g, s1.gos[n]? = some g ∧ g.f = f := by
  obtain ⟨g0, hg0, hf0⟩ := h
  have key : ∀ (i : Nat) (g g1 : GoFrame), s.gos[i]? = some g → g1.f = g.f →
      ∃ g2, (s.gos.set i g1)[n]? = some g2 ∧ g2.f = f := by
    intro i g g1 hg hf
    by_cases hni : n = i
    · subst hni
      rw [hg0] at hg
      have : g0 = g := Option.some.inj hg
      subst this
      exact ⟨g1, lookup_set_self g1 hg0, hf.trans hf0⟩
    · exact ⟨g0, (lookup_set hg).2 (Or.inr ⟨hni, hg0⟩), hf0⟩
  cases hst with
  | callerStore i v => exact ⟨g0, hg0, hf0⟩
  | callGo i f1 hf =>
    exact ⟨g0, by simp only [enterGo, lookup_snoc]; exact Or.inl hg0, hf0⟩
  | goMalloc i ok g hg hpc => exact key i g _ hg rfl
  | goStore i ok g h hg hpc hst => exact key i g _ hg rfl
  | goAttrInit i ok g hg hpc => exact key i g _ hg rfl
  | goSetDetach i ok g d hg hpc hattr => exact key i g _ hg rfl
  | goCreate i g d hg hpc hattr => exact key i g _ hg rfl
  | goCreateFail i g d hg hpc hattr => exact key i g _ hg rfl
  | thrCast t o c hc hpc => exact ⟨g0, hg0, hf0⟩
  | thrCall t o c d hc hpc hld => exact ⟨g0, hg0, hf0⟩
  | thrReturn t o c hc hpc => exact ⟨g0, hg0, hf0⟩
  | thrFree t o c h hc hpc hfr => exact ⟨g0, hg0, hf0⟩
  | thrRet t o c hc hpc => exact ⟨g0, hg0, hf0⟩

/-! ### The contract of the launcher -/

/-- C1: for every descriptor `f` and every state, when `malloc` succeeds `Go(f)`
allocates exactly one new block, of `sizeof(struct Func)` bytes, whose content
is `f` (the heap afterwards is the heap before followed by that one block, so
no earlier block has changed), and it issues exactly one thread-creation
request: its start routine is `call_gofunction` and its argument is the
address of the new block.  The effects of the call are the five listed, in
this order; when the request succeeds the new thread is about to run
`call_gofunction` on that address. -/
theorem Go_boxes_descriptor_and_requests_one_thread (sz : Nat) (s : Sys) (f : Func)
    (createOk : Bool) :
    ∃ s1, Go sz s f true createOk = .ok s1 ∧
      s1.heap = s.heap ++ [Cell.live sz (some f)] ∧
      s1.trace = s.trace ++
        [(.go s.gos.length, .malloc sz (some s.heap.length)),
         (.go s.gos.length, .store (some s.heap.length) f),
         (.go s.gos.length, .attr_init),
         (.go s.gos.length, .attr_setdetachstate .detached),
         (.go s.gos.length, .pthread_create .call_gofunction (some s.heap.length) .detached
            createOk)] ∧
      (createOk = true → s1.thrs = s.thrs ++ [spawned (some s.heap.length) .detached]) := by
  refine ⟨_, Go_eq sz s f createOk, rfl, rfl, ?_⟩
  intro h
  simp [h]

/-- C2: a call of `call_gofunction` by thread `t` on a live handle `a` that
holds descriptor `d` reads the handle, invokes `guardedcall0` exactly once,
with `d`, and when that call comes back, whichever way (`o`), frees the handle
exactly once, after the call, and returns `NULL`.  The handle is live before
(hypothesis) and freed after; the thread has then terminated, so there is no
second free. -/
theorem call_gofunction_frees_handle_once (sz : Nat) (s : Sys) (t : Nat) (o : Outcome)
    (c : CgFrame) (a n : Nat) (d : Func) (hc : s.thrs[t]? = some c) (hpc : c.pc = .cast)
    (harg : c.arg = some a) (hcell : s.heap[a]? = some (Cell.live n (some d))) (hsz : sz ≤ n) :
    ∃ s1, call_gofunction sz s t o = .ok s1 ∧
      s1.trace = s.trace ++
        [(.thr t, .load (some a) d), (.thr t, .guardedcall0 d), (.thr t, .guardedreturn o),
         (.thr t, .free (some a)), (.thr t, .ret none)] ∧
      s1.heap = s.heap.set a Cell.freed ∧
      s1.heap[a]? = some Cell.freed ∧
      s1.thrs[t]? = some { c with f := some a, passed := some d, pc := .done,
                                  retval := some none } ∧
      step sz s1 (.thr t o) = .error .notEnabled := by
  refine ⟨_, call_gofunction_eq sz s t o c a n d hc hpc harg hcell hsz, rfl, rfl, ?_, ?_, ?_⟩
  · simp [List.getElem?_set, lookup_lt hcell]
  · exact lookup_set_self _ hc
  · simp [step, call_gofunction_step, lookup_set_self _ hc]

/-- Witness of C2: the thread created by `Go(demoF)` runs `call_gofunction` on
its handle, block 0. -/
theorem call_gofunction_frees_handle_once_witness :
    (demoSpawned.thrs[0]? = some (spawned (some 0) .detached) ∧
      demoSpawned.heap[0]? = some (Cell.live 16 (some demoF)) ∧ 16 ≤ 16) ∧
    ∃ s1, call_gofunction 16 demoSpawned 0 .faultIntercepted = .ok s1 ∧
      s1.trace = demoSpawned.trace ++
        [(.thr 0, .load (some 0) demoF), (.thr 0, .guardedcall0 demoF),
         (.thr 0, .guardedreturn .faultIntercepted),
         (.thr 0, .free (some 0)), (.thr 0, .ret none)] ∧
      s1.heap = demoSpawned.heap.set 0 Cell.freed ∧
      s1.heap[0]? = some Cell.freed ∧
      s1.thrs[0]? = some { spawned (some 0) .detached with
        f := some 0, passed := some demoF, pc := .done, retval := some none } ∧
      step 16 s1 (.thr 0 .faultIntercepted) = .error .notEnabled :=
  ⟨⟨rfl, rfl, le_refl _⟩,
    call_gofunction_frees_handle_once 16 demoSpawned 0 .faultIntercepted
      (spawned (some 0) .detached) 0 16 demoF rfl rfl rfl rfl (le_refl _)⟩

/-- Counterexample to C3: `pthread_create` fails during `Go(demoF)`.  `Go`
returns normally; the block it allocated is still live and holds the
descriptor, nothing was freed, no thread exists, and the caller is told
nothing. -/
theorem Go_failed_creation_counterexample :
    Go 16 (init [] []) demoF true false = .ok demoLeak ∧
    demoLeak.heap[0]? = some (Cell.live 16 (some demoF)) ∧
    demoLeak.thrs = [] ∧
    (∀ e ∈ demoLeak.trace, ∀ p, e.2 ≠ Event.free p) := by
  refine ⟨rfl, rfl, rfl, ?_⟩
  intro e he p
  simp only [demoLeak, List.mem_cons, List.mem_singleton, List.not_mem_nil, or_false] at he
  rcases he with rfl | rfl | rfl | rfl | rfl <;> simp

/-- C3 as amended: when `pthread_create` fails during `Go(f)` (after a
successful `malloc`), `Go` does not look at the result.  It returns normally,
having performed the same effects as a successful call except for the outcome
of the request; no thread is created, the caller's variables are untouched,
and the block allocated by the call is still live, holding `f`. -/
theorem Go_ignores_failed_creation (sz : Nat) (s : Sys) (f : Func) :
    ∃ s1, Go sz s f true false = .ok s1 ∧
      s1.heap = s.heap ++ [Cell.live sz (some f)] ∧
      s1.heap[s.heap.length]? = some (Cell.live sz (some f)) ∧
      s1.thrs = s.thrs ∧
      s1.callerVars = s.callerVars ∧
      s1.trace = s.trace ++
        [(.go s.gos.length, .malloc sz (some s.heap.length)),
         (.go s.gos.length, .store (some s.heap.length) f),
         (.go s.gos.length, .attr_init),
         (.go s.gos.length, .attr_setdetachstate .detached),
         (.go s.gos.length, .pthread_create .call_gofunction (some s.heap.length) .detached
            false)] := by
  refine ⟨_, Go_eq sz s f false, rfl, ?_, ?_, rfl, rfl⟩
  · simp
  · simp

/-- C5: from any heap `h0`, along every schedule in which `malloc` and
`pthread_create` always succeed, once every call of `Go` has returned and
every thread has run `call_gofunction` to its end (however its guarded call
came back), the live blocks are exactly the blocks of `h0` that were live,
with their sizes and contents. -/
theorem heap_returns_to_baseline (sz : Nat) (h0 : Heap) (vars : List Func)
    (acts : List Action) (s : Sys) (hrun : run sz (init h0 vars) acts = .ok s)
    (hok : ∀ a ∈ acts, a.succeeds = true)
    (hgo : ∀ g ∈ s.gos, g.pc = .done) (hthr : ∀ c ∈ s.thrs, c.pc = .done) :
    ∀ (a n : Nat) (x : Option Func),
      s.heap[a]? = some (Cell.live n x) ↔ h0[a]? = some (Cell.live n x) :=
  heap_baseline (Inv_run hrun) (Succ_run hrun hok) hgo hthr

/-- Witness of C5: one call of `Go`, then its thread, to the end, from the
empty heap. -/
theorem heap_returns_to_baseline_witness :
    (run 16 (init [] [demoF]) demoActs = .ok demoFinal ∧
      (∀ a ∈ demoActs, a.succeeds = true) ∧
      (∀ g ∈ demoFinal.gos, g.pc = .done) ∧ (∀ c ∈ demoFinal.thrs, c.pc = .done)) ∧
    ∀ (a n : Nat) (x : Option Func),
      demoFinal.heap[a]? = some (Cell.live n x) ↔ ([] : Heap)[a]? = some (Cell.live n x) :=
  ⟨⟨rfl, by decide, by decide, by decide⟩,
    heap_returns_to_baseline 16 [] [demoF] demoActs demoFinal rfl (by decide) (by decide)
      (by decide)⟩

/-! ### Detached threads and the non-blocking launch -/

theorem goEffects_not_task {sz : Nat} {g : GoFrame} {e : Event} (he : e ∈ goEffects sz g) :
    (∀ d, e ≠ .guardedcall0 d) ∧ (∀ p, e ≠ .free p) ∧ (∀ t, e ≠ .pthread_join t) ∧
    (∀ p d, e ≠ .load p d) ∧
    (∀ start arg d ok, e = .pthread_create start arg d ok →
      start = .call_gofunction ∧ d = .detached) := by
  unfold goEffects at he
  cases hp : g.pc <;> simp only [hp, List.mem_cons, List.mem_singleton, List.not_mem_nil,
    or_false] at he
  · subst he; simp
  · rcases he with rfl | rfl <;> simp
  · rcases he with rfl | rfl | rfl <;> simp
  · rcases he with rfl | rfl | rfl | rfl <;> simp
  · rcases he with rfl | rfl | rfl | rfl | rfl <;> simp
    intro start arg d
    exact ⟨fun h1 _ h3 _ => ⟨h1.symm, h3.symm⟩, fun h1 _ h3 _ => ⟨h1.symm, h3.symm⟩⟩

theorem cgEffects_not_create {c : CgFrame} {d : Func} {o : Outcome} {e : Event}
    (he : e ∈ cgEffects c d o) :
    (∀ start arg d1 ok, e ≠ .pthread_create start arg d1 ok) ∧ (∀ t, e ≠ .pthread_join t) ∧
    (∀ d1, e = .guardedcall0 d1 → d1 = d ∧ c.pc ≠ .cast ∧ c.pc ≠ .call) := by
  unfold cgEffects at he
  cases hp : c.pc <;> simp only [hp, List.mem_cons, List.mem_singleton, List.not_mem_nil,
    or_false] at he
  · rcases he with rfl | rfl <;> simp
  · rcases he with rfl | rfl | rfl <;> simp
  · rcases he with rfl | rfl | rfl | rfl <;> simp
  · rcases he with rfl | rfl | rfl | rfl | rfl <;> simp

/-- C7: in every reachable state every thread has been created detached; every
thread-creation request in the trace was issued by an activation of `Go`, with
start routine `call_gofunction` and a detached attribute; the effects of a
returned call of `Go` are, in this order, the allocation, the store, the
initialisation of the attribute object, the setting of its detach state to
`PTHREAD_CREATE_DETACHED` and the one thread-creation request; and no thread
is ever joined. -/
theorem threads_are_created_detached (sz : Nat) (h0 : Heap) (vars : List Func)
    (acts : List Action) (s : Sys) (hrun : run sz (init h0 vars) acts = .ok s) :
    (∀ c ∈ s.thrs, c.detach = .detached) ∧
    (∀ who start arg d ok, (who, Event.pthread_create start arg d ok) ∈ s.trace →
      start = .call_gofunction ∧ d = .detached ∧ ∃ i, who = .go i) ∧
    (∀ (i : Nat) g, s.gos[i]? = some g → g.pc = .done →
      effectsOf (.go i) s.trace =
        [.malloc sz g.f_, .store g.f_ g.f, .attr_init, .attr_setdetachstate .detached,
         .pthread_create .call_gofunction g.f_ .detached g.thread.isSome]) ∧
    (∀ who t, (who, Event.pthread_join t) ∉ s.trace) := by
  have hG := Good_run hrun
  have hmem : ∀ who e, (who, e) ∈ s.trace →
      (∃ i g, who = .go i ∧ s.gos[i]? = some g ∧ e ∈ goEffects sz g) ∨
      (∃ t c d o, who = .thr t ∧ s.thrs[t]? = some c ∧ e ∈ cgEffects c d o) := by
    intro who e hm
    have he := mem_effectsOf.2 hm
    cases who with
    | go i =>
      by_cases hi : i < s.gos.length
      · have hg : s.gos[i]? = some s.gos[i] := List.getElem?_eq_getElem hi
        rw [hG.eff.go_eff i _ hg] at he
        exact Or.inl ⟨i, _, rfl, hg, he⟩
      · rw [hG.eff.go_none i (by omega)] at he
        exact absurd he (by simp)
    | thr t =>
      by_cases ht : t < s.thrs.length
      · have hc : s.thrs[t]? = some s.thrs[t] := List.getElem?_eq_getElem ht
        obtain ⟨d, o, -, heq⟩ := hG.eff.thr_eff t _ hc
        rw [heq] at he
        exact Or.inr ⟨t, _, d, o, rfl, hc, he⟩
      · rw [hG.eff.thr_none t (by omega)] at he
        exact absurd he (by simp)
  refine ⟨?_, ?_, ?_, ?_⟩
  · intro c hc
    obtain ⟨t, ht⟩ := List.mem_iff_getElem?.1 hc
    obtain ⟨j, gj, a, -, -, -, hthr⟩ := hG.inv.thr_ok t c ht
    exact hthr.2.1
  · intro who start arg d ok hm
    rcases hmem who _ hm with ⟨i, g, rfl, -, he⟩ | ⟨t, c, d1, o, rfl, -, he⟩
    · have := (goEffects_not_task he).2.2.2.2 start arg d ok rfl
      exact ⟨this.1, this.2, i, rfl⟩
    · exact absurd rfl ((cgEffects_not_create he).1 start arg d ok)
  · intro i g hg hpc
    rw [hG.eff.go_eff i g hg]
    simp [goEffects, hpc]
  · intro who t hm
    rcases hmem who _ hm with ⟨i, g, rfl, -, he⟩ | ⟨t1, c, d1, o, rfl, -, he⟩
    · exact (goEffects_not_task he).2.2.1 t rfl
    · exact (cgEffects_not_create he).2.1 t rfl

/-- Witness of C7: the demonstration schedule, run to its end. -/
theorem threads_are_created_detached_witness :
    run 16 (init [] [demoF]) demoActs = .ok demoFinal ∧
    ((∀ c ∈ demoFinal.thrs, c.detach = .detached) ∧
    (∀ who start arg d ok, (who, Event.pthread_create start arg d ok) ∈ demoFinal.trace →
      start = .call_gofunction ∧ d = .detached ∧ ∃ i, who = .go i) ∧
    (∀ (i : Nat) g, demoFinal.gos[i]? = some g → g.pc = .done →
      effectsOf (.go i) demoFinal.trace =
        [.malloc 16 g.f_, .store g.f_ g.f, .attr_init, .attr_setdetachstate .detached,
         .pthread_create .call_gofunction g.f_ .detached g.thread.isSome]) ∧
    (∀ who t, (who, Event.pthread_join t) ∉ demoFinal.trace)) :=
  ⟨rfl, threads_are_created_detached 16 [] [demoF] demoActs demoFinal rfl⟩

/-! ### The hand-off of the descriptor -/

/-- C8: in every reachable state of every schedule in which `malloc` and
`pthread_create` always succeed: every activation of `Go` past its first
statement holds one handle, a block allocated since the start; two activations
never hold the same handle; two threads never hold the same handle; the handle
of a thread that has not yet freed it is live and holds a descriptor; and the
whole history of a handle is its life cycle: allocated, written once and
handed to `pthread_create` by its activation of `Go`, in this order, then read
once and freed by the one thread created for it.  In particular the only store
to it is the one of its activation of `Go`, the only read is the one of that
thread, and nobody reads it before the thread is created. -/
theorem handle_is_written_once_and_read_once (sz : Nat) (h0 : Heap) (vars : List Func)
    (acts : List Action) (s : Sys) (hrun : run sz (init h0 vars) acts = .ok s)
    (hok : ∀ a ∈ acts, a.succeeds = true) :
    (∀ (i : Nat) g, s.gos[i]? = some g → g.pc ≠ .malloc →
      ∃ a, g.f_ = some a ∧ h0.length ≤ a ∧ a < s.heap.length) ∧
    (∀ (i j : Nat) g g1 a, s.gos[i]? = some g → s.gos[j]? = some g1 →
      g.f_ = some a → g1.f_ = some a → i = j) ∧
    (∀ (t t1 : Nat) c c1, s.thrs[t]? = some c → s.thrs[t1]? = some c1 →
      c.arg = c1.arg → t = t1) ∧
    (∀ (t : Nat) c, s.thrs[t]? = some c → c.pc ≠ .ret → c.pc ≠ .done →
      ∃ a d, c.arg = some a ∧ s.heap[a]? = some (Cell.live sz (some d))) ∧
    (∀ (i : Nat) g a, s.gos[i]? = some g → g.f_ = some a →
      history a s.trace = lifecycle sz s.thrs i g a ∧
      storesTo a s.trace =
        (if g.pc = .malloc ∨ g.pc = .store then [] else [(.go i, .store (some a) g.f)]) ∧
      (g.thread = none → loadsFrom a s.trace = []) ∧
      (∀ t c, g.thread = some t → s.thrs[t]? = some c →
        c.arg = some a ∧
        loadsFrom a s.trace =
          (if c.pc = .cast ∨ c.pc = .call then [] else [(.thr t, .load (some a) g.f)]))) := by
  have hG := Good_run hrun
  have hS := Succ_run hrun hok
  refine ⟨?_, hG.inv.go_inj, ?_, ?_, ?_⟩
  · intro i g hg hpc
    obtain ⟨a, ha⟩ := hS.allocated i g hg hpc
    exact ⟨a, ha, (hG.inv.go_ok i g hg).1 a ha⟩
  · intro t t1 c c1 hc hc1 harg
    obtain ⟨i, g, a, hg, hgt, hga, hthr⟩ := hG.inv.thr_ok t c hc
    obtain ⟨j, g1, b, hg1, hgt1, hgb, hthr1⟩ := hG.inv.thr_ok t1 c1 hc1
    have hab : a = b := by
      have := hthr.1.symm.trans (harg.trans hthr1.1)
      exact Option.some.inj this
    subst hab
    have hij := hG.inv.go_inj _ _ _ _ _ hg hg1 hga hgb
    subst hij
    rw [hg] at hg1
    have : g = g1 := Option.some.inj hg1
    subst this
    rw [hgt] at hgt1
    exact Option.some.inj hgt1
  · intro t c hc hret hdone
    obtain ⟨i, g, a, hg, hgt, hga, hthr⟩ := hG.inv.thr_ok t c hc
    refine ⟨a, g.f, hthr.1, ?_⟩
    have h3 := hthr.2.2
    cases hp : c.pc <;> simp only [hp] at h3 hret hdone
    · exact h3.2.2
    · exact h3.2.2.2
    · exact h3.2.2.2
    · exact h3.2.2.2
    · exact absurd rfl hret
    · exact absurd rfl hdone
  · intro i g a hg hga
    have hh := hG.hist.owned i g a hg hga
    have hst : storesTo a s.trace = storesTo a (lifecycle sz s.thrs i g a) := by
      rw [← hh, storesTo_history]
    have hld : loadsFrom a s.trace = loadsFrom a (lifecycle sz s.thrs i g a) := by
      rw [← hh, loadsFrom_history]
    refine ⟨hh, ?_, ?_, ?_⟩
    · rw [hst]
      unfold lifecycle
      cases hp : g.pc <;> simp only [hp] <;> try (simp [storesTo]; done)
      cases ht : g.thread with
      | none => simp [storesTo]
      | some t =>
        simp only
        cases hc : s.thrs[t]? with
        | none => simp [storesTo]
        | some c =>
          simp only [thrAccesses]
          cases c.pc <;> simp [storesTo]
    · intro ht
      rw [hld]
      unfold lifecycle
      cases hp : g.pc <;> simp [loadsFrom, ht]
    · intro t c ht hc
      obtain ⟨b, hb, hthr⟩ := passed_of_thread hG.inv hg ht hc
      rw [hga] at hb
      have : a = b := Option.some.inj hb
      subst this
      refine ⟨hthr.1, ?_⟩
      rw [hld]
      have hpc := (GoOk_thread (hG.inv.go_ok i g hg) ht).1
      simp only [lifecycle, hpc, ht, hc, thrAccesses]
      cases c.pc <;> simp [loadsFrom]

/-- Witness of C8: the demonstration schedule, run to its end. -/
theorem handle_is_written_once_and_read_once_witness :
    (run 16 (init [] [demoF]) demoActs = .ok demoFinal ∧
      ∀ a ∈ demoActs, a.succeeds = true) ∧
    ((∀ (i : Nat) g, demoFinal.gos[i]? = some g → g.pc ≠ .malloc →
      ∃ a, g.f_ = some a ∧ ([] : Heap).length ≤ a ∧ a < demoFinal.heap.length) ∧
    (∀ (i j : Nat) g g1 a, demoFinal.gos[i]? = some g → demoFinal.gos[j]? = some g1 →
      g.f_ = some a → g1.f_ = some a → i = j) ∧
    (∀ (t t1 : Nat) c c1, demoFinal.thrs[t]? = some c → demoFinal.thrs[t1]? = some c1 →
      c.arg = c1.arg → t = t1) ∧
    (∀ (t : Nat) c, demoFinal.thrs[t]? = some c → c.pc ≠ .ret → c.pc ≠ .done →
      ∃ a d, c.arg = some a ∧ demoFinal.heap[a]? = some (Cell.live 16 (some d))) ∧
    (∀ (i : Nat) g a, demoFinal.gos[i]? = some g → g.f_ = some a →
      history a demoFinal.trace = lifecycle 16 demoFinal.thrs i g a ∧
      storesTo a demoFinal.trace =
        (if g.pc = .malloc ∨ g.pc = .store then [] else [(.go i, .store (some a) g.f)]) ∧
      (g.thread = none → loadsFrom a demoFinal.trace = []) ∧
      (∀ t c, g.thread = some t → demoFinal.thrs[t]? = some c →
        c.arg = some a ∧
        loadsFrom a demoFinal.trace =
          (if c.pc = .cast ∨ c.pc = .call then [] else [(.thr t, .load (some a) g.f)])))) :=
  ⟨⟨rfl, by decide⟩,
    handle_is_written_once_and_read_once 16 [] [demoF] demoActs demoFinal rfl (by decide)⟩

/-- C9: the hand-off delivers the caller's descriptor unchanged.  A caller
invokes `Go` on its variable `i`, which holds `f` at that moment, in any
reachable state; whatever happens afterwards (other calls of `Go`, other
threads running and freeing, the caller assigning to its variable), the
parameter of that activation is `f`, its effects are those of `Go` in program
order (the store of `f` precedes the thread-creation request), and the thread
created for it passes `f`, and nothing else, to `guardedcall0`: once the
thread is past the call, `guardedcall0 f` is among its effects. -/
theorem handoff_delivers_descriptor_unchanged (sz : Nat) (h0 : Heap) (vars : List Func)
    (acts1 acts2 : List Action) (i : Nat) (f : Func) (s1 s : Sys)
    (hrun1 : run sz (init h0 vars) acts1 = .ok s1) (hvar : s1.callerVars[i]? = some f)
    (hrun2 : run sz s1 (.callGo i :: acts2) = .ok s) :
    ∃ g, s.gos[s1.gos.length]? = some g ∧ g.f = f ∧
      effectsOf (.go s1.gos.length) s.trace = goEffects sz g ∧
      ∀ t c, g.thread = some t → s.thrs[t]? = some c →
        (∀ d, c.passed = some d → d = f) ∧
        (∀ d, Event.guardedcall0 d ∈ effectsOf (.thr t) s.trace → d = f) ∧
        (c.pc ≠ .cast → c.pc ≠ .call →
          c.passed = some f ∧ Event.guardedcall0 f ∈ effectsOf (.thr t) s.trace) := by
  have hG1 := Good_run hrun1
  have hstep : step sz s1 (.callGo i) = .ok (enterGo s1 f) := by simp [step, hvar]
  rw [run_cons acts2 hstep] at hrun2
  have hG := Good_run_from (Good_step hG1 (Step_of_step hstep)) hrun2
  have hP : ∃ g, s.gos[s1.gos.length]? = some g ∧ g.f = f :=
    run_induct (fun s => ∃ g, s.gos[s1.gos.length]? = some g ∧ g.f = f) (fun _ => True)
      (fun _ _ _ hP _ hst => param_stable hP hst) acts2 _ _
      ⟨{ f := f, f_ := none, attr := none, thread := none, pc := .malloc },
        by simp [enterGo], rfl⟩ (fun _ _ => trivial) hrun2
  obtain ⟨g, hg, hgf⟩ := hP
  refine ⟨g, hg, hgf, hG.eff.go_eff _ g hg, ?_⟩
  intro t c ht hc
  obtain ⟨a, -, hthr⟩ := passed_of_thread hG.inv hg ht hc
  obtain ⟨d0, o, hd0, heff⟩ := hG.eff.thr_eff t c hc
  have hpass : ∀ d, c.passed = some d → d = f := by
    intro d hd
    have h3 := hthr.2.2
    cases hp : c.pc <;> simp only [hp] at h3
    · rw [h3.1] at hd; exact absurd hd (by simp)
    · rw [h3.2.1] at hd; exact absurd hd (by simp)
    · rw [h3.2.1] at hd; exact hgf ▸ (Option.some.inj hd).symm
    · rw [h3.2.1] at hd; exact hgf ▸ (Option.some.inj hd).symm
    · rw [h3.2.1] at hd; exact hgf ▸ (Option.some.inj hd).symm
    · rw [h3.2.1] at hd; exact hgf ▸ (Option.some.inj hd).symm
  refine ⟨hpass, ?_, ?_⟩
  · intro d hd
    rw [heff] at hd
    obtain ⟨hdd, h1, h2⟩ := (cgEffects_not_create hd).2.2 d rfl
    subst hdd
    exact hpass d (hd0 h1 h2)
  · intro h1 h2
    have hp0 := hd0 h1 h2
    have hd0f : d0 = f := hpass d0 hp0
    subst hd0f
    refine ⟨hp0, ?_⟩
    rw [heff]
    unfold cgEffects
    cases hp : c.pc <;> simp only [hp] at h1 h2 ⊢
    · exact absurd rfl h1
    · exact absurd rfl h2
    all_goals simp

/-- Witness of C9: the caller overwrites its variable right after the call;
the thread still passes the descriptor the variable held at the call. -/
theorem handoff_delivers_descriptor_unchanged_witness :
    (run 16 (init [] [demoF]) [] = .ok (init [] [demoF]) ∧
      (init [] [demoF]).callerVars[0]? = some demoF ∧
      run 16 (init [] [demoF]) (.callGo 0 :: demoActsStore) = .ok demoStored) ∧
    ∃ g, demoStored.gos[(init [] [demoF]).gos.length]? = some g ∧ g.f = demoF ∧
      effectsOf (.go (init [] [demoF]).gos.length) demoStored.trace = goEffects 16 g ∧
      ∀ t c, g.thread = some t → demoStored.thrs[t]? = some c →
        (∀ d, c.passed = some d → d = demoF) ∧
        (∀ d, Event.guardedcall0 d ∈ effectsOf (.thr t) demoStored.trace → d = demoF) ∧
        (c.pc ≠ .cast → c.pc ≠ .call →
          c.passed = some demoF ∧
          Event.guardedcall0 demoF ∈ effectsOf (.thr t) demoStored.trace) :=
  ⟨⟨rfl, rfl, rfl⟩,
    handoff_delivers_descriptor_unchanged 16 [] [demoF] [] demoActsStore 0 demoF
      (init [] [demoF]) demoStored rfl rfl rfl⟩

end Goroutine
